import Mathlib

/-!
# Verification of the SUMAC distance-matrix / clustering core (`sumac.py`)

Shallow embedding of the distance-matrix builder (`distance_matrix_worker`,
`make_distance_matrix`), the single-linkage clustering engine
(`merge_closest_clusters`, `make_clusters`) and the guided cluster builder
(`make_guided_clusters`, `make_guided_clusters_worker`).

Modelling conventions:
* Matrices are `List (List ℚ)`; a cell read out of range yields the default
  `0` (the code only reads in-range cells on the states we reason about).
* Sequence keys are natural numbers; the sequence store is abstracted by a
  length function `slen : Nat → ℚ` and the BLAST comparator by
  `cmp : Nat → Nat → Option ℚ` (`some e` = hit with e-value `e`, `none` =
  no hit), both deterministic, as the code assumes.
* Python floats are modelled by `ℚ`: every constant the code manipulates
  (`99`, `50.0`, `10.0`, `0.0`, thresholds, e-values) is exact.
* The recursion of `merge_closest_clusters` and the Python `for ... append`
  loop (which iterates a list while it may be mutated) are given fuel;
  `none` means the fuel ran out, and divergence is proved by showing the
  result is `none` for every fuel.
-/

namespace Sumac

/-- A distance matrix: list of rows of rationals. -/
abbrev Mat := List (List ℚ)

/-- Read cell `(i, j)`; out-of-range reads give `0`. -/
def getCell (dm : Mat) (i j : Nat) : ℚ := (dm.getD i []).getD j 0

/-- Write value `v` into cell `(i, j)` (no-op when out of range), modelling
`row = dm[i]; row[j] = v; dm[i] = row` from the source. -/
def setCell (dm : Mat) (i j : Nat) (v : ℚ) : Mat :=
  dm.set i ((dm.getD i []).set j v)

/-- The matrix is square with every row of length `dm.length`. -/
def Square (dm : Mat) : Prop :=
  ∀ i, i < dm.length → (dm.getD i []).length = dm.length

/-- Cell symmetry: `dm[i][j] = dm[j][i]` everywhere. -/
def Symm (dm : Mat) : Prop := ∀ i j, getCell dm i j = getCell dm j i

/-- Zero diagonal. -/
def DiagZero (dm : Mat) : Prop := ∀ i, i < dm.length → getCell dm i i = 0

/-- All entries non-negative. -/
def Nonneg (dm : Mat) : Prop := ∀ i j, 0 ≤ getCell dm i j

/-! ## The scanning phase of `merge_closest_clusters` (sumac.py lines 284-303)
State `(min_distance, cluster1, cluster2)` is threaded through the two nested
`while` loops; the inner loop breaks as soon as `min_distance == 0`, the
outer loop re-checks the same condition after the inner loop exits. -/

/-- Scan state: `(min_distance, cluster1, cluster2)`. -/
abbrev ScanState := ℚ × Nat × Nat

/-- Inner `while y < len(distance_matrix)` loop of the scan, for row `x`. -/
def scanY (dm : Mat) (x : Nat) (y : Nat) (s : ScanState) : ScanState :=
  if y < dm.length then
    if x ≠ y then
      let s' := if getCell dm x y < s.1 then (getCell dm x y, x, y) else s
      if s'.1 = 0 then s' else scanY dm x (y + 1) s'
    else scanY dm x (y + 1) s
  else s
termination_by dm.length - y
decreasing_by all_goals omega

/-- Outer `while x < len(distance_matrix)` loop of the scan. -/
def scanX (dm : Mat) (x : Nat) (s : ScanState) : ScanState :=
  if x < dm.length then
    let s' := scanY dm x (x + 1) s
    if s'.1 = 0 then s' else scanX dm (x + 1) s'
  else s
termination_by dm.length - x
decreasing_by omega

/-- The whole scanning phase: `min_distance` starts at the sentinel `99`,
`cluster1 = cluster2 = 0`. -/
def scanMin (dm : Mat) : ScanState := scanX dm 0 (99, 0, 0)

/-- Row-major list of the unordered index pairs `(x, y)`, `x < y`, in the
order in which the scan visits them. -/
def pairList (n : Nat) : List (Nat × Nat) :=
  (List.range n).flatMap fun x => (List.range' (x + 1) (n - (x + 1))).map fun y => (x, y)

/-- Reference fold for the scan: walk the pair list left to right, update on
a strictly smaller cell, stop as soon as the running minimum is `0`. -/
def scanFold (dm : Mat) : List (Nat × Nat) → ScanState → ScanState
  | [], s => s
  | p :: ps, s =>
      let s' := if getCell dm p.1 p.2 < s.1 then (getCell dm p.1 p.2, p.1, p.2) else s
      if s'.1 = 0 then s' else scanFold dm ps s'

/-- The tail of the pair rows scanned from row `x` on. -/
def pairsFrom (n x : Nat) : List (Nat × Nat) :=
  (List.range' x (n - x)).flatMap fun a => (List.range' (a + 1) (n - (a + 1))).map fun y => (a, y)

/-! ## The merge phase of `merge_closest_clusters` (sumac.py lines 305-329) -/

/-- Python's `for sequence in clusters[cluster2]: clusters[cluster1].append(sequence)`
(lines 310-311).  The loop iterator holds the list *object* `clusters[cluster2]`
and an index, re-reading the list on every step, so appending to
`clusters[cluster1]` when `cluster1 == cluster2` grows the iterated list and the
loop never finishes.  Fuelled: `none` means the fuel ran out. -/
def appendLoop (dst src : Nat) : Nat → Nat → List (List Nat) → Option (List (List Nat))
  | 0, _, _ => none
  | fuel + 1, idx, cs =>
      if idx < (cs.getD src []).length then
        appendLoop dst src fuel (idx + 1)
          (cs.set dst ((cs.getD dst []) ++ [(cs.getD src []).getD idx 0]))
      else some cs

/-- The cluster merge of `clusters[cluster2]` into `clusters[cluster1]`, with
fuel that suffices exactly when the Python loop terminates. -/
def clusterMerge (cs : List (List Nat)) (c1 c2 : Nat) : Option (List (List Nat)) :=
  appendLoop c1 c2 ((cs.getD c2 []).length + 1) 0 cs

/-- Condition `distance_matrix[cluster1][i] > distance_matrix[cluster2][i]` (line 316). -/
def updCond (dm : Mat) (x y i : Nat) : Prop := getCell dm x i > getCell dm y i

instance (dm : Mat) (x y i : Nat) : Decidable (updCond dm x y i) := by
  unfold updCond; infer_instance

/-- One iteration of the single-linkage row/column update (lines 316-322):
if `dm[x][i] > dm[y][i]` write `dm[y][i]` into `(x, i)` and then into `(i, x)`. -/
def rowUpdateStep (x y : Nat) (m : Mat) (i : Nat) : Mat :=
  if updCond m x y i then
    let m1 := setCell m x i (getCell m y i)
    setCell m1 i x (getCell m1 y i)
  else m

/-- Matrix part of a merge of cluster `y` into cluster `x` (lines 314-327):
the update loop over `range(len(distance_matrix[cluster1]))`, then
`del distance_matrix[cluster2]`, then deletion of column `cluster2` from every
remaining row. -/
def matrixMerge (dm : Mat) (x y : Nat) : Mat :=
  (((List.range (dm.getD x []).length).foldl (rowUpdateStep x y) dm).eraseIdx y).map
    fun r => r.eraseIdx y

/-- Outcome of one body of `merge_closest_clusters`: return the clusters,
recurse on merged state, or hang in the self-append loop. -/
inductive MccStep where
  | terminated : MccStep
  | merged : List (List Nat) → Mat → MccStep
  | diverged : MccStep
deriving DecidableEq

/-- One body of `merge_closest_clusters` (lines 284-327): scan, threshold
check, cluster merge, matrix update. -/
def mergeStep (cs : List (List Nat)) (dm : Mat) (threshold : ℚ) : MccStep :=
  if (scanMin dm).1 > threshold then .terminated
  else
    match clusterMerge cs (scanMin dm).2.1 (scanMin dm).2.2 with
    | none => .diverged
    | some cs1 =>
        .merged (cs1.eraseIdx (scanMin dm).2.2)
          (matrixMerge dm (scanMin dm).2.1 (scanMin dm).2.2)

/-- Function `merge_closest_clusters` with explicit fuel for the tail recursion
(line 329); `none` = the fuel ran out (in particular on divergence of the
Python append loop). -/
def mergeClosestClusters : Nat → List (List Nat) → Mat → ℚ → Option (List (List Nat))
  | 0, _, _, _ => none
  | fuel + 1, cs, dm, t =>
      match mergeStep cs dm t with
      | .terminated => some cs
      | .diverged => none
      | .merged cs' dm' => mergeClosestClusters fuel cs' dm' t

/-- Function `make_clusters` (lines 264-274): one singleton cluster per key, then the
recursive merge; the fuel `dm.length + 1` covers every possible merge. -/
def makeClusters (keys : List Nat) (dm : Mat) (t : ℚ) : Option (List (List Nat)) :=
  mergeClosestClusters (dm.length + 1) (keys.map fun k => [k]) dm t

/-- The update loop `for i in range(R)` of the merge (lines 315-322). -/
def updLoop (dm : Mat) (x y R : Nat) : Mat :=
  (List.range R).foldl (rowUpdateStep x y) dm

/-! ## The all-pairs distance matrix builder
(`distance_matrix_worker` lines 137-223, `make_distance_matrix` lines 227-260)
The sequence store is abstracted: `keys` is the `seq_keys` list, `slen k` the
length of the record for key `k`, and `cmp k1 k2` the BLAST call with subject
`k1` and query `k2` (`some e` = first hsp's e-value, `none` = no alignment).
Worker scheduling is modelled by the order in which rows are claimed and
processed; `buildRows` executes the claimed rows in the given order. -/

/-- Environment of one builder invocation. -/
structure BuildEnv where
  keys : List Nat
  slen : Nat → ℚ
  cmp : Nat → Nat → Option ℚ
  L : ℚ

/-- The length-similarity gate (line 176):
`length1 > length2 * (1 + L) or length1 < length2 * (1 - L)`. -/
def gateFail (slen : Nat → ℚ) (L : ℚ) (k1 k2 : Nat) : Prop :=
  slen k1 > slen k2 * (1 + L) ∨ slen k1 < slen k2 * (1 - L)

instance (slen : Nat → ℚ) (L : ℚ) (k1 k2 : Nat) : Decidable (gateFail slen L k1 k2) := by
  unfold gateFail
  infer_instance

/-- Builder state: the shared matrix plus the comparator invocations `(i, j)`
in execution order. -/
structure BuildState where
  dm : Mat
  calls : List (Nat × Nat)
deriving DecidableEq

/-- Initialization of `make_distance_matrix` (lines 239-244): `n × n` copies of
the sentinel 99. -/
def initMatrix (n : Nat) : Mat := List.replicate n (List.replicate n (99 : ℚ))

/-- The body of the inner `for key2 in seq_keys` loop (lines 163-213) at row
`i`, column `j`: skip unless the cell is the sentinel; diagonal (same key) gets
0; the length gate writes 50 to both cells; otherwise the comparator runs and
its e-value (or the no-hit 10.0) is written to both cells. -/
def processCell (env : BuildEnv) (st : BuildState) (i j : Nat) : BuildState :=
  if getCell st.dm i j = 99 then
    if env.keys.getD i 0 = env.keys.getD j 0 then
      { st with dm := setCell st.dm i j 0 }
    else if gateFail env.slen env.L (env.keys.getD i 0) (env.keys.getD j 0) then
      { st with dm := setCell (setCell st.dm i j 50) j i 50 }
    else
      match env.cmp (env.keys.getD i 0) (env.keys.getD j 0) with
      | some e =>
          { dm := setCell (setCell st.dm i j e) j i e, calls := st.calls ++ [(i, j)] }
      | none =>
          { dm := setCell (setCell st.dm i j 10) j i 10, calls := st.calls ++ [(i, j)] }
  else st

/-- Processing of one claimed row (lines 161-214). -/
def processRow (env : BuildEnv) (st : BuildState) (i : Nat) : BuildState :=
  (List.range env.keys.length).foldl (fun s j => processCell env s i j) st

/-- The whole build with rows claimed and processed in `order`. -/
def buildRows (env : BuildEnv) (order : List Nat) : BuildState :=
  order.foldl (processRow env) ⟨initMatrix env.keys.length, []⟩

/-- Function `make_distance_matrix` with the rows processed in index order. -/
def makeDistanceMatrix (env : BuildEnv) : Mat :=
  (buildRows env (List.range env.keys.length)).dm

/-- The flattened sequence of `(row, column)` cell steps the build executes. -/
def buildSteps (n : Nat) (order : List Nat) : List (Nat × Nat) :=
  order.flatMap fun i => (List.range n).map fun j => (i, j)

/-- The builder state after the first `t` cell steps: the intermediate states
of the construction. -/
def buildStateAt (env : BuildEnv) (order : List Nat) (t : Nat) : BuildState :=
  ((buildSteps env.keys.length order).take t).foldl
    (fun s p => processCell env s p.1 p.2) ⟨initMatrix env.keys.length, []⟩

/-- The value a cell `(i, j)` receives when its comparison executes. -/
def cellValue (env : BuildEnv) (i j : Nat) : ℚ :=
  if env.keys.getD i 0 = env.keys.getD j 0 then 0
  else if gateFail env.slen env.L (env.keys.getD i 0) (env.keys.getD j 0) then 50
  else
    match env.cmp (env.keys.getD i 0) (env.keys.getD j 0) with
    | some e => e
    | none => 10

/-- Exact `n × n` shape. -/
def ShapeN (dm : Mat) (n : Nat) : Prop :=
  dm.length = n ∧ ∀ a, (dm.getD a []).length = if a < n then n else 0

/-- Symmetric with the diagonal still 0-or-sentinel: the invariant that holds
at every moment of the construction. -/
def SymmDiag (dm : Mat) : Prop :=
  Symm dm ∧ ∀ i, getCell dm i i = 0 ∨ getCell dm i i = 99

/-- Every in-range cell is still the sentinel or already carries the value its
comparison produces. -/
def CellsOK (env : BuildEnv) (dm : Mat) : Prop :=
  ∀ i j, i < env.keys.length → j < env.keys.length →
    getCell dm i j = 99 ∨ getCell dm i j = cellValue env i j

/-- Row `r` completely carries its final values. -/
def RowDone (env : BuildEnv) (dm : Mat) (r : Nat) : Prop :=
  ∀ j, j < env.keys.length → getCell dm r j = cellValue env r j

/-! ## The guided cluster builder (`make_guided_clusters` lines 333-370,
`make_guided_clusters_worker` lines 374-442)
Here `glen g` is the length of guide `g`'s sequence, `klen k` that of candidate
`k`'s, and `hit g k` says whether the BLAST of candidate `k` (query) against
guide `g` (subject) reports an alignment with an hsp. -/

structure GuidedEnv where
  glen : Nat → ℚ
  klen : Nat → ℚ
  hit : Nat → Nat → Bool
  L : ℚ

/-- The guided length gate (line 411): `length1 < length2 * (1 + L) and
length1 > length2 * (1 - L)`, `length1` the guide's, `length2` the
candidate's. -/
def guidedGate (env : GuidedEnv) (g k : Nat) : Prop :=
  env.glen g < env.klen k * (1 + env.L) ∧ env.glen g > env.klen k * (1 - env.L)

instance (env : GuidedEnv) (g k : Nat) : Decidable (guidedGate env g k) := by
  unfold guidedGate
  infer_instance

/-- One worker's processing of its claimed guide `g` (lines 401-431): the
guide's cluster starts empty (line 353) and every candidate that passes the
gate and hits is appended, in candidate order. -/
def guidedCluster (env : GuidedEnv) (keys : List Nat) (g : Nat) : List Nat :=
  keys.foldl (fun cl k => if guidedGate env g k ∧ env.hit g k then cl ++ [k] else cl) []

/-- Function `make_guided_clusters` (lines 333-370): one cluster per guide, indexed in
guide order; each guide is claimed by exactly one worker and its cluster is
built by `guidedCluster`. -/
def makeGuidedClusters (env : GuidedEnv) (guides : List Nat) (keys : List Nat) :
    List (List Nat) :=
  guides.map fun g => guidedCluster env keys g

/-! ## What happens before workers are spawned
(`make_guided_clusters` lines 340-366, `make_distance_matrix` lines 236-256) -/

/-- Observable outcome of one `make_guided_clusters` call: whether worker
processes were spawned, and the returned cluster list (`none` = the call
exited at the missing-guide-file check, lines 346-348, before spawning). -/
structure GuidedRun where
  spawned : Bool
  result : Option (List (List Nat))
deriving DecidableEq

/-- In `make_guided_clusters` the only check that runs before
`multiprocessing.Process` is spawned is `os.path.isfile(guide_seq)`;
in every other case `num_cores` workers are spawned unconditionally,
also when the guide list or the key list is empty. -/
def makeGuidedClustersRun (env : GuidedEnv) (guideFileExists : Bool)
    (guides keys : List Nat) : GuidedRun :=
  if guideFileExists then
    { spawned := true, result := some (makeGuidedClusters env guides keys) }
  else
    { spawned := false, result := none }

/-- Function `make_distance_matrix` performs no pre-spawn validation at all: workers
are spawned for every input, including an empty key list. -/
def makeDistanceMatrixRun (env : BuildEnv) : Bool × Mat :=
  (true, makeDistanceMatrix env)

/-! ## The row-claim protocol (`distance_matrix_worker` lines 148-155):
`with lock: if key not in already_compared: already_compared.append(key);
compare_row = True`.  The lock makes check-and-insert one atomic step; a trace
is any interleaving of such steps across workers. -/

structure ClaimState where
  claimed : List Nat
  assigned : List (Nat × Nat)
deriving DecidableEq

/-- One atomic lock-protected claim attempt by worker `w` for row key `k`;
on success `(w, k)` is recorded: that worker runs the per-row comparison
loop for `k`. -/
def claimStep (s : ClaimState) (w k : Nat) : ClaimState :=
  if k ∈ s.claimed then s
  else { claimed := k :: s.claimed, assigned := (w, k) :: s.assigned }

/-- Execution of an arbitrary interleaving of claim attempts. -/
def runClaims (trace : List (Nat × Nat)) : ClaimState :=
  trace.foldl (fun s t => claimStep s t.1 t.2) ⟨[], []⟩

/-! ## Concrete inputs used by the claim counterexamples and witnesses -/

/-- Two keys of equal length 100, comparator always hits with e-value 2. -/
def env0 : BuildEnv := ⟨[0, 1], fun _ => 100, fun _ _ => some 2, 1 / 2⟩

/-- Lengths 100 (key 0) and 160 (key 1) with `L = 1/2`: the length-gate
scenario of the spec. -/
def env3 : BuildEnv :=
  ⟨[0, 1], fun k => if k = 0 then 100 else 160, fun _ _ => some 1, 1 / 2⟩

/-- Zero sequence keys. -/
def envEmpty : BuildEnv := ⟨[], fun _ => 100, fun _ _ => some 1, 1 / 2⟩

/-- Guides of length 100, candidates of length 1000: the gate fails for every
guide/candidate pair. -/
def envG : GuidedEnv := ⟨fun _ => 100, fun _ => 1000, fun _ _ => true, 1 / 2⟩

/-- A symmetric zero-diagonal distance matrix on three clusters. -/
def dmW : Mat := [[0, 1, 2], [1, 0, 3], [2, 3, 0]]

theorem length_setCell (dm : Mat) (i j : Nat) (v : ℚ) :
    (setCell dm i j v).length = dm.length := by
  simp [setCell]

theorem getD_setCell (dm : Mat) (i j : Nat) (v : ℚ) (a : Nat) :
    (setCell dm i j v).getD a [] =
      if a = i ∧ i < dm.length then (dm.getD i []).set j v else dm.getD a [] := by
  unfold setCell
  rw [List.getD_eq_getElem?_getD, List.getElem?_set]
  by_cases hai : i = a
  · subst hai
    by_cases hi : i < dm.length
    · simp [hi]
    · have hnone : dm[i]? = none := List.getElem?_eq_none (by omega)
      simp [hi, List.getD_eq_getElem?_getD, hnone]
  · rw [if_neg hai, if_neg (fun h => hai h.1.symm), List.getD_eq_getElem?_getD]

theorem rowlen_setCell (dm : Mat) (i j : Nat) (v : ℚ) (a : Nat) :
    ((setCell dm i j v).getD a []).length = (dm.getD a []).length := by
  rw [getD_setCell]
  split
  · next h => rw [h.1]; simp
  · rfl

theorem getCell_setCell_ne (dm : Mat) (i j : Nat) (v : ℚ) (a b : Nat)
    (h : ¬(a = i ∧ b = j)) :
    getCell (setCell dm i j v) a b = getCell dm a b := by
  unfold getCell
  rw [getD_setCell]
  by_cases hrow : a = i ∧ i < dm.length
  · rcases hrow with ⟨rfl, hi⟩
    have hbj : b ≠ j := fun hbj => h ⟨rfl, hbj⟩
    simp only [hi, and_self, if_true, List.getD_eq_getElem?_getD,
      List.getElem?_set_ne (Ne.symm hbj)]
  · simp [hrow]

theorem getCell_setCell_self (dm : Mat) (i j : Nat) (v : ℚ)
    (hi : i < dm.length) (hj : j < (dm.getD i []).length) :
    getCell (setCell dm i j v) i j = v := by
  unfold getCell
  rw [getD_setCell, if_pos ⟨rfl, hi⟩, List.getD_eq_getElem?_getD,
    List.getElem?_set_self (by simpa using hj)]
  rfl

theorem mem_pairList (n : Nat) (p : Nat × Nat) :
    p ∈ pairList n ↔ p.1 < p.2 ∧ p.2 < n := by
  rcases p with ⟨x, y⟩
  simp only [pairList, List.mem_flatMap, List.mem_map, List.mem_range, List.mem_range'_1]
  constructor
  · rintro ⟨a, ha, b, hb, h⟩
    obtain ⟨rfl, rfl⟩ : a = x ∧ b = y := by
      exact ⟨congrArg Prod.fst h, congrArg Prod.snd h⟩
    exact ⟨by omega, by omega⟩
  · rintro ⟨hxy, hyn⟩
    exact ⟨x, by omega, y, by omega, rfl⟩

theorem scanFold_append (dm : Mat) (l1 l2 : List (Nat × Nat)) (s : ScanState)
    (hs : s.1 ≠ 0) :
    scanFold dm (l1 ++ l2) s =
      if (scanFold dm l1 s).1 = 0 then scanFold dm l1 s
      else scanFold dm l2 (scanFold dm l1 s) := by
  induction l1 generalizing s with
  | nil => simp [scanFold, hs]
  | cons p ps ih =>
      simp only [List.cons_append, scanFold]
      by_cases h0 : (if getCell dm p.1 p.2 < s.1 then (getCell dm p.1 p.2, p.1, p.2) else s).1 = 0
      · simp [h0]
      · simp only [h0, if_false]
        exact ih _ h0

theorem scanY_eq_scanFold (dm : Mat) (x : Nat) :
    ∀ k y s, dm.length - y = k → x < y → s.1 ≠ 0 →
      scanY dm x y s =
        scanFold dm ((List.range' y (dm.length - y)).map fun z => (x, z)) s := by
  intro k
  induction k with
  | zero =>
      intro y s hk hxy hs
      rw [scanY]
      have hy : ¬ y < dm.length := by omega
      rw [if_neg hy, hk]
      simp [scanFold]
  | succ k ih =>
      intro y s hk hxy hs
      have hy : y < dm.length := by omega
      rw [scanY, if_pos hy, if_pos (by omega : x ≠ y), hk, List.range'_succ,
        List.map_cons]
      simp only [scanFold]
      by_cases h0 : (if getCell dm x y < s.1 then (getCell dm x y, x, y) else s).1 = 0
      · simp only [h0, if_true]
      · simp only [h0, if_false]
        rw [ih (y + 1) _ (by omega) (by omega) h0]
        have hk2 : dm.length - (y + 1) = k := by omega
        rw [hk2]

theorem scanX_eq_scanFold (dm : Mat) :
    ∀ k x s, dm.length - x = k → s.1 ≠ 0 →
      scanX dm x s = scanFold dm (pairsFrom dm.length x) s := by
  intro k
  induction k with
  | zero =>
      intro x s hk hs
      rw [scanX]
      have hx : ¬ x < dm.length := by omega
      rw [if_neg hx]
      unfold pairsFrom
      rw [hk]
      simp [scanFold]
  | succ k ih =>
      intro x s hk hs
      have hx : x < dm.length := by omega
      rw [scanX, if_pos hx]
      have hrow : pairsFrom dm.length x =
          ((List.range' (x + 1) (dm.length - (x + 1))).map fun y => (x, y)) ++
            pairsFrom dm.length (x + 1) := by
        unfold pairsFrom
        rw [hk, List.range'_succ, List.flatMap_cons,
          (by omega : dm.length - (x + 1) = k)]
      rw [hrow, scanFold_append dm _ _ s hs,
        ← scanY_eq_scanFold dm x (dm.length - (x + 1)) (x + 1) s rfl (by omega) hs]
      by_cases h0 : (scanY dm x (x + 1) s).1 = 0
      · simp only [h0, if_true]
      · simp only [h0, if_false]
        exact ih (x + 1) _ (by omega) h0

/-- The scan is the row-major fold over all unordered pairs `(x, y)`, `x < y`. -/
theorem scanMin_eq_scanFold (dm : Mat) :
    scanMin dm = scanFold dm (pairList dm.length) (99, 0, 0) := by
  rw [scanMin, scanX_eq_scanFold dm (dm.length - 0) 0 _ rfl (by norm_num)]
  unfold pairsFrom pairList
  rw [List.range_eq_range', Nat.sub_zero]

theorem scanFold_spec (dm : Mat) :
    ∀ (ps : List (Nat × Nat)) (s : ScanState), s.1 ≠ 0 →
      (scanFold dm ps s).1 ≤ s.1 ∧
      (scanFold dm ps s = s ∨
        ∃ l1 l2, ps = l1 ++ (scanFold dm ps s).2 :: l2 ∧
          (scanFold dm ps s).1 =
            getCell dm (scanFold dm ps s).2.1 (scanFold dm ps s).2.2 ∧
          (scanFold dm ps s).1 < s.1 ∧
          ∀ p ∈ l1, (scanFold dm ps s).1 < getCell dm p.1 p.2) ∧
      (∀ p ∈ ps, 0 ≤ getCell dm p.1 p.2 →
        (scanFold dm ps s).1 ≤ getCell dm p.1 p.2) := by
  intro ps
  induction ps with
  | nil => intro s hs; refine ⟨le_refl _, Or.inl rfl, ?_⟩; simp
  | cons p ps ih =>
      intro s hs
      simp only [scanFold]
      by_cases hup : getCell dm p.1 p.2 < s.1
      · simp only [hup, if_true]
        by_cases h0 : getCell dm p.1 p.2 = 0
        · simp only [h0, if_pos rfl]
          refine ⟨by simpa [h0] using le_of_lt hup, ?_, ?_⟩
          · right
            exact ⟨[], ps, by simp, by simp [h0], by simpa [h0] using hup, by simp⟩
          · intro q hq hq0
            rcases List.mem_cons.mp hq with rfl | hq'
            · simp [h0]
            · simpa [h0] using hq0
        · have h0' : ((getCell dm p.1 p.2, p.1, p.2) : ScanState).1 ≠ 0 := h0
          simp only [if_neg h0']
          obtain ⟨ih1, ih2, ih3⟩ := ih _ h0'
          refine ⟨le_trans ih1 (le_of_lt hup), ?_, ?_⟩
          · rcases ih2 with heq | ⟨l1, l2, hdec, hcell, hlt, hfirst⟩
            · right
              refine ⟨[], ps, by simp [heq], by simp [heq], by simpa [heq] using hup,
                by simp⟩
            · right
              refine ⟨p :: l1, l2,
                by rw [List.cons_append]; exact congrArg (List.cons p) hdec,
                hcell, lt_trans hlt hup, ?_⟩
              intro q hq
              rcases List.mem_cons.mp hq with rfl | hq'
              · exact hlt
              · exact hfirst q hq'
          · intro q hq hq0
            rcases List.mem_cons.mp hq with rfl | hq'
            · exact ih1
            · exact ih3 q hq' hq0
      · simp only [hup, if_false, if_neg hs]
        obtain ⟨ih1, ih2, ih3⟩ := ih _ hs
        have hcellge : s.1 ≤ getCell dm p.1 p.2 := le_of_not_lt hup
        refine ⟨ih1, ?_, ?_⟩
        · rcases ih2 with heq | ⟨l1, l2, hdec, hcell, hlt, hfirst⟩
          · left; exact heq
          · right
            refine ⟨p :: l1, l2,
              by rw [List.cons_append]; exact congrArg (List.cons p) hdec,
              hcell, hlt, ?_⟩
            intro q hq
            rcases List.mem_cons.mp hq with rfl | hq'
            · exact lt_of_lt_of_le hlt hcellge
            · exact hfirst q hq'
        · intro q hq hq0
          rcases List.mem_cons.mp hq with rfl | hq'
          · exact le_trans ih1 hcellge
          · exact ih3 q hq' hq0

/-- The scan minimum never exceeds the sentinel `99` it starts from. -/
theorem scanMin_fst_le (dm : Mat) : (scanMin dm).1 ≤ 99 := by
  rw [scanMin_eq_scanFold]
  exact (scanFold_spec dm (pairList dm.length) (99, 0, 0) (by norm_num)).1

/-- Either no pair updated the scan (state still `(99, 0, 0)`), or the scan
returns an in-range pair `cluster1 < cluster2` holding the found minimum. -/
theorem scanMin_cases (dm : Mat) :
    scanMin dm = (99, 0, 0) ∨
      ((scanMin dm).1 < 99 ∧ (scanMin dm).2.1 < (scanMin dm).2.2 ∧
        (scanMin dm).2.2 < dm.length ∧
        getCell dm (scanMin dm).2.1 (scanMin dm).2.2 = (scanMin dm).1) := by
  have h := (scanFold_spec dm (pairList dm.length) (99, 0, 0) (by norm_num)).2.1
  rw [← scanMin_eq_scanFold] at h
  rcases h with h | ⟨l1, l2, hdec, hcell, hlt, _⟩
  · exact Or.inl h
  · right
    have hmem : (scanMin dm).2 ∈ pairList dm.length := by
      rw [hdec]; exact List.mem_append_right _ (List.mem_cons_self _ _)
    rw [mem_pairList] at hmem
    exact ⟨hlt, hmem.1, hmem.2, hcell.symm⟩

/-- With at most one cluster there is no pair to scan. -/
theorem scanMin_of_small (dm : Mat) (h : dm.length ≤ 1) :
    scanMin dm = (99, 0, 0) := by
  rw [scanMin_eq_scanFold]
  have hnil : pairList dm.length = [] := by
    rw [List.eq_nil_iff_forall_not_mem]
    intro p hp
    rw [mem_pairList] at hp
    omega
  rw [hnil]
  rfl

/-- With non-negative entries, the scan result is a lower bound on every
off-diagonal pair. -/
theorem scanMin_le_pairs (dm : Mat)
    (hnn : ∀ a b, a < b → b < dm.length → 0 ≤ getCell dm a b) :
    ∀ a b, a < b → b < dm.length → (scanMin dm).1 ≤ getCell dm a b := by
  intro a b hab hb
  have h := (scanFold_spec dm (pairList dm.length) (99, 0, 0) (by norm_num)).2.2
  rw [← scanMin_eq_scanFold] at h
  exact h (a, b) ((mem_pairList _ _).mpr ⟨hab, hb⟩) (hnn a b hab hb)

/-- Tie-break: the returned pair is the first one in scan order achieving the
minimum; every pair visited before it has a strictly larger cell. -/
theorem scanMin_first (dm : Mat) (hup : (scanMin dm).1 < 99) :
    ∃ l1 l2, pairList dm.length = l1 ++ (scanMin dm).2 :: l2 ∧
      ∀ p ∈ l1, (scanMin dm).1 < getCell dm p.1 p.2 := by
  have h := (scanFold_spec dm (pairList dm.length) (99, 0, 0) (by norm_num)).2.1
  rw [← scanMin_eq_scanFold] at h
  rcases h with h | ⟨l1, l2, hdec, _, _, hfirst⟩
  · rw [h] at hup; norm_num at hup
  · exact ⟨l1, l2, hdec, hfirst⟩

theorem getD_eraseIdx {α : Type} (l : List α) (y k : Nat) (d : α) :
    (l.eraseIdx y).getD k d = if k < y then l.getD k d else l.getD (k + 1) d := by
  induction l generalizing y k with
  | nil => simp only [List.eraseIdx_nil, List.getD_nil]; split <;> rfl
  | cons a as ih =>
      cases y with
      | zero => simp
      | succ y =>
          cases k with
          | zero => simp
          | succ k =>
              simp only [List.eraseIdx_cons_succ, List.getD_cons_succ, ih,
                Nat.add_lt_add_iff_right]

theorem set_getD_self {α : Type} (l : List α) (i : Nat) (d : α) :
    l.set i (l.getD i d) = l := by
  by_cases hi : i < l.length
  · apply List.ext_getElem?
    intro n
    rw [List.getElem?_set]
    by_cases hin : i = n
    · subst hin
      rw [if_pos rfl, if_pos hi, List.getD_eq_getElem l d hi,
        List.getElem?_eq_getElem hi]
    · rw [if_neg hin]
  · exact List.set_eq_of_length_le (by omega)

/-- When source and destination clusters differ, the Python append loop
terminates and appends the whole source row. -/
theorem appendLoop_ne {dst src : Nat} (h : dst ≠ src) :
    ∀ fuel idx cs, (cs.getD src []).length - idx < fuel →
      appendLoop dst src fuel idx cs =
        some (cs.set dst (cs.getD dst [] ++ (cs.getD src []).drop idx)) := by
  intro fuel
  induction fuel with
  | zero => intro idx cs hf; omega
  | succ fuel ih =>
      intro idx cs hf
      rw [appendLoop]
      by_cases hidx : idx < (cs.getD src []).length
      · rw [if_pos hidx]
        set cs' := cs.set dst ((cs.getD dst []) ++ [(cs.getD src []).getD idx 0]) with hcs'
        have hsrc : cs'.getD src [] = cs.getD src [] := by
          rw [hcs', List.getD_eq_getElem?_getD, List.getElem?_set_ne h,
            List.getD_eq_getElem?_getD]
        rw [ih (idx + 1) cs' (by rw [hsrc]; omega), hsrc]
        by_cases hdst : dst < cs.length
        · have hdget : cs'.getD dst [] = (cs.getD dst []) ++ [(cs.getD src []).getD idx 0] := by
            rw [hcs', List.getD_eq_getElem?_getD, List.getElem?_set_self hdst]
            rfl
          rw [hcs', List.set_set, hdget]
          have hdrop : (cs.getD src []).drop idx =
              (cs.getD src []).getD idx 0 :: (cs.getD src []).drop (idx + 1) := by
            rw [List.drop_eq_getElem_cons hidx, List.getD_eq_getElem _ 0 hidx]
          rw [hdrop]
          simp
        · have hnop : ∀ r : List Nat, cs.set dst r = cs :=
            fun r => List.set_eq_of_length_le (by omega)
          rw [hcs', hnop, hnop, hnop]
      · rw [if_neg hidx]
        have hdrop : (cs.getD src []).drop idx = [] := List.drop_eq_nil_of_le (by omega)
        rw [hdrop, List.append_nil, set_getD_self]

/-- When `cluster1 == cluster2` and the cluster is non-empty, the append loop
re-reads the growing list and never exits, whatever the fuel. -/
theorem appendLoop_self {dst : Nat} :
    ∀ fuel idx cs, dst < cs.length → idx < (cs.getD dst []).length →
      appendLoop dst dst fuel idx cs = none := by
  intro fuel
  induction fuel with
  | zero => intro idx cs _ _; rfl
  | succ fuel ih =>
      intro idx cs hdst hidx
      rw [appendLoop, if_pos hidx]
      set cs' := cs.set dst ((cs.getD dst []) ++ [(cs.getD dst []).getD idx 0]) with hcs'
      have hget : cs'.getD dst [] = (cs.getD dst []) ++ [(cs.getD dst []).getD idx 0] := by
        rw [hcs', List.getD_eq_getElem?_getD, List.getElem?_set_self hdst]
        rfl
      refine ih (idx + 1) cs' (by simpa [hcs'] using hdst) ?_
      rw [hget, List.length_append, List.length_cons, List.length_nil]
      omega

/-- Evaluation of `clusterMerge` for two distinct clusters: plain concatenation. -/
theorem clusterMerge_ne (cs : List (List Nat)) {c1 c2 : Nat} (h : c1 ≠ c2) :
    clusterMerge cs c1 c2 = some (cs.set c1 (cs.getD c1 [] ++ cs.getD c2 [])) := by
  rw [clusterMerge, appendLoop_ne h _ 0 cs (by omega), List.drop_zero]

/-- Merging a non-empty cluster into itself makes `clusterMerge` diverge. -/
theorem clusterMerge_self (cs : List (List Nat)) {c : Nat} (hc : c < cs.length)
    (hne : cs.getD c [] ≠ []) : clusterMerge cs c c = none := by
  rw [clusterMerge]
  exact appendLoop_self _ 0 cs hc (by cases h : cs.getD c [] with
    | nil => exact absurd h hne
    | cons a l => simp [h])

theorem matrixMerge_eq_updLoop (dm : Mat) (x y : Nat) :
    matrixMerge dm x y =
      ((updLoop dm x y (dm.getD x []).length).eraseIdx y).map fun r => r.eraseIdx y := rfl

theorem updLoop_succ (dm : Mat) (x y R : Nat) :
    updLoop dm x y (R + 1) = rowUpdateStep x y (updLoop dm x y R) R := by
  unfold updLoop
  rw [List.range_succ, List.foldl_append, List.foldl_cons, List.foldl_nil]

theorem rowUpdateStep_length (x y : Nat) (m : Mat) (i : Nat) :
    (rowUpdateStep x y m i).length = m.length := by
  unfold rowUpdateStep
  split
  · rw [length_setCell, length_setCell]
  · rfl

theorem rowUpdateStep_rowlen (x y : Nat) (m : Mat) (i a : Nat) :
    ((rowUpdateStep x y m i).getD a []).length = ((m.getD a []).length) := by
  unfold rowUpdateStep
  split
  · rw [rowlen_setCell, rowlen_setCell]
  · rfl

theorem rowUpdateStep_pos {m : Mat} {x y i : Nat} (hc : updCond m x y i) :
    rowUpdateStep x y m i =
      setCell (setCell m x i (getCell m y i)) i x
        (getCell (setCell m x i (getCell m y i)) y i) := by
  rw [rowUpdateStep, if_pos hc]

theorem rowUpdateStep_neg {m : Mat} {x y i : Nat} (hc : ¬ updCond m x y i) :
    rowUpdateStep x y m i = m := by
  rw [rowUpdateStep, if_neg hc]

theorem updLoop_length (dm : Mat) (x y R : Nat) :
    (updLoop dm x y R).length = dm.length := by
  induction R with
  | zero => rfl
  | succ R ih => rw [updLoop_succ, rowUpdateStep_length, ih]

theorem updLoop_rowlen (dm : Mat) (x y R a : Nat) :
    ((updLoop dm x y R).getD a []).length = (dm.getD a []).length := by
  induction R with
  | zero => rfl
  | succ R ih => rw [updLoop_succ, rowUpdateStep_rowlen, ih]

/-- Full characterization of the update loop: row `x` takes the single-linkage
value for every processed column, column `x` mirrors it, and nothing else moves.
`x < y` (guaranteed by the scan) makes every read of rows `x` and `y` see the
pre-loop values. -/
theorem updLoop_spec (dm : Mat) {x y : Nat} (hxy : x < y) (hsq : Square dm)
    (hx : x < dm.length) :
    ∀ R, R ≤ dm.length →
      (∀ b, getCell (updLoop dm x y R) x b =
        if b < R ∧ updCond dm x y b then getCell dm y b else getCell dm x b) ∧
      (∀ a, a ≠ x → getCell (updLoop dm x y R) a x =
        if a < R ∧ updCond dm x y a then getCell dm y a else getCell dm a x) ∧
      (∀ a b, a ≠ x → b ≠ x → getCell (updLoop dm x y R) a b = getCell dm a b) := by
  intro R
  induction R with
  | zero =>
      intro _
      refine ⟨fun b => ?_, fun a _ => ?_, fun a b _ _ => rfl⟩
      · rw [if_neg (fun h => absurd h.1 (by omega))]; rfl
      · rw [if_neg (fun h => absurd h.1 (by omega))]; rfl
  | succ R ih =>
      intro hR1
      have hR : R < dm.length := by omega
      obtain ⟨ih1, ih2, ih3⟩ := ih (by omega)
      have hUlen : (updLoop dm x y R).length = dm.length := updLoop_length dm x y R
      have hUrow : ∀ a, ((updLoop dm x y R).getD a []).length = (dm.getD a []).length :=
        updLoop_rowlen dm x y R
      have hyx : y ≠ x := by omega
      have hUxR : getCell (updLoop dm x y R) x R = getCell dm x R := by
        rw [ih1 R, if_neg (fun h => absurd h.1 (by omega))]
      have hUyR : getCell (updLoop dm x y R) y R = getCell dm y R := by
        by_cases hRx : R = x
        · subst hRx
          rw [ih2 y hyx, if_neg (fun h => absurd h.1 (by omega))]
        · exact ih3 y R hyx hRx
      have hcnd : updCond (updLoop dm x y R) x y R ↔ updCond dm x y R := by
        unfold updCond
        rw [hUxR, hUyR]
      rw [updLoop_succ]
      by_cases hc : updCond dm x y R
      · -- the write branch fires
        rw [rowUpdateStep_pos (hcnd.mpr hc)]
        have hwv : getCell (setCell (updLoop dm x y R) x R
            (getCell (updLoop dm x y R) y R)) y R = getCell dm y R := by
          rw [getCell_setCell_ne _ _ _ _ _ _ (fun h => hyx h.1), hUyR]
        rw [hwv, hUyR]
        refine ⟨fun b => ?_, fun a ha => ?_, fun a b ha hb => ?_⟩
        · -- row x
          by_cases hsc : x = R ∧ b = x
          · obtain ⟨h1, h2⟩ := hsc
            subst h2
            rw [← h1, getCell_setCell_self _ _ _ _
                (by rw [length_setCell, updLoop_length]; omega)
                (by rw [rowlen_setCell, updLoop_rowlen, hsq _ (by omega)]; omega),
              if_pos ⟨by omega, by rwa [← h1] at hc⟩]
          · rw [getCell_setCell_ne _ _ _ _ _ _ hsc]
            by_cases hbR : b = R
            · subst hbR
              rw [getCell_setCell_self _ _ _ _
                  (by rw [updLoop_length]; omega)
                  (by rw [updLoop_rowlen, hsq x hx]; omega),
                if_pos ⟨by omega, hc⟩]
            · rw [getCell_setCell_ne _ _ _ _ _ _ (fun h => hbR h.2), ih1 b]
              by_cases hbc : b < R ∧ updCond dm x y b
              · rw [if_pos hbc, if_pos ⟨by omega, hbc.2⟩]
              · rw [if_neg hbc, if_neg (fun h => hbc ⟨by omega, h.2⟩)]
        · -- column x
          by_cases haR : a = R
          · subst haR
            rw [getCell_setCell_self _ _ _ _
                (by rw [length_setCell, updLoop_length]; omega)
                (by rw [rowlen_setCell, updLoop_rowlen, hsq _ (by omega)]; omega),
              if_pos ⟨by omega, hc⟩]
          · rw [getCell_setCell_ne _ _ _ _ _ _ (fun h => haR h.1),
              getCell_setCell_ne _ _ _ _ _ _ (fun h => ha h.1), ih2 a ha]
            by_cases hac : a < R ∧ updCond dm x y a
            · rw [if_pos hac, if_pos ⟨by omega, hac.2⟩]
            · rw [if_neg hac, if_neg (fun h => hac ⟨by omega, h.2⟩)]
        · -- the rest of the matrix
          rw [getCell_setCell_ne _ _ _ _ _ _ (fun h => hb h.2),
            getCell_setCell_ne _ _ _ _ _ _ (fun h => ha h.1), ih3 a b ha hb]
      · -- no write
        rw [rowUpdateStep_neg (fun h => hc (hcnd.mp h))]
        refine ⟨fun b => ?_, fun a ha => ?_, fun a b ha hb => ih3 a b ha hb⟩
        · rw [ih1 b]
          by_cases hbc : b < R ∧ updCond dm x y b
          · rw [if_pos hbc, if_pos ⟨by omega, hbc.2⟩]
          · rw [if_neg hbc, if_neg ?_]
            rintro ⟨hb1, hb2⟩
            by_cases hbR : b = R
            · exact hc (hbR ▸ hb2)
            · exact hbc ⟨by omega, hb2⟩
        · rw [ih2 a ha]
          by_cases hac : a < R ∧ updCond dm x y a
          · rw [if_pos hac, if_pos ⟨by omega, hac.2⟩]
          · rw [if_neg hac, if_neg ?_]
            rintro ⟨ha1, ha2⟩
            by_cases haR : a = R
            · exact hc (haR ▸ ha2)
            · exact hac ⟨by omega, ha2⟩

theorem getD_map_eraseIdx (M : Mat) (y a : Nat) :
    ((M.map fun r => r.eraseIdx y).getD a []) = (M.getD a []).eraseIdx y := by
  by_cases ha : a < M.length
  · rw [List.getD_eq_getElem?_getD, List.getElem?_map,
      List.getElem?_eq_getElem ha, List.getD_eq_getElem?_getD,
      List.getElem?_eq_getElem ha]
    rfl
  · rw [List.getD_eq_getElem?_getD, List.getElem?_eq_none (by simpa using ha),
      List.getD_eq_getElem?_getD, List.getElem?_eq_none (by omega)]
    rfl

theorem getCell_map_eraseIdx (M : Mat) (y a b : Nat) :
    getCell ((M.eraseIdx y).map fun r => r.eraseIdx y) a b =
      getCell M (if a < y then a else a + 1) (if b < y then b else b + 1) := by
  unfold getCell
  rw [getD_map_eraseIdx, getD_eraseIdx (α := List ℚ), getD_eraseIdx (α := ℚ)]
  by_cases ha : a < y <;> by_cases hb : b < y <;> simp [ha, hb]

/-- Every cell of `matrixMerge` read off the full update loop. -/
theorem getCell_matrixMerge (dm : Mat) {x y : Nat} (hx : x < dm.length)
    (hsq : Square dm) (a b : Nat) :
    getCell (matrixMerge dm x y) a b =
      getCell (updLoop dm x y dm.length)
        (if a < y then a else a + 1) (if b < y then b else b + 1) := by
  rw [matrixMerge_eq_updLoop, hsq x hx, getCell_map_eraseIdx]

/-- Closed form for any cell of the completed update loop. -/
theorem updLoop_getCell_full (dm : Mat) {x y : Nat} (hxy : x < y) (hsq : Square dm)
    (hx : x < dm.length) (a b : Nat) :
    getCell (updLoop dm x y dm.length) a b =
      if a = x then
        (if b < dm.length ∧ updCond dm x y b then getCell dm y b else getCell dm x b)
      else if b = x then
        (if a < dm.length ∧ updCond dm x y a then getCell dm y a else getCell dm a x)
      else getCell dm a b := by
  obtain ⟨s1, s2, s3⟩ := updLoop_spec dm hxy hsq hx dm.length le_rfl
  by_cases hax : a = x
  · subst hax
    rw [if_pos rfl]
    exact s1 b
  · rw [if_neg hax]
    by_cases hbx : b = x
    · subst hbx
      rw [if_pos rfl]
      exact s2 a hax
    · rw [if_neg hbx]
      exact s3 a b hax hbx

theorem matrixMerge_length (dm : Mat) (x y : Nat) (hy : y < dm.length) :
    (matrixMerge dm x y).length = dm.length - 1 := by
  rw [matrixMerge_eq_updLoop, List.length_map,
    List.length_eraseIdx_of_lt (by rw [updLoop_length]; omega),
    updLoop_length]

theorem matrixMerge_square (dm : Mat) (x y : Nat) (hsq : Square dm)
    (hy : y < dm.length) : Square (matrixMerge dm x y) := by
  intro a ha
  rw [matrixMerge_length dm x y hy] at ha
  rw [matrixMerge_length dm x y hy, matrixMerge_eq_updLoop, getD_map_eraseIdx,
    getD_eraseIdx (α := List ℚ)]
  have hrow : ∀ c, c < dm.length →
      (((updLoop dm x y (dm.getD x []).length).getD c []).eraseIdx y).length
        = dm.length - 1 := by
    intro c hc
    rw [List.length_eraseIdx_of_lt (by rw [updLoop_rowlen, hsq c hc]; omega),
      updLoop_rowlen, hsq c hc]
  by_cases hay : a < y
  · rw [if_pos hay]
    exact hrow a (by omega)
  · rw [if_neg hay]
    exact hrow (a + 1) (by omega)

/-- The conditional of line 316 equals `min`. -/
theorem ite_lt_eq_min (p q : ℚ) : (if q < p then q else p) = min p q := by
  by_cases h : q < p
  · rw [if_pos h, min_eq_right (le_of_lt h)]
  · rw [if_neg h, min_eq_left (le_of_not_lt h)]

/-- The body returns the current cluster list exactly when the scan minimum
exceeds the threshold (line 306). -/
theorem mergeStep_terminated_iff (cs : List (List Nat)) (dm : Mat) (t : ℚ) :
    mergeStep cs dm t = .terminated ↔ t < (scanMin dm).1 := by
  unfold mergeStep
  by_cases h : (scanMin dm).1 > t
  · simp only [h, if_true]
  · simp only [h, if_false]
    constructor
    · intro heq
      cases hcm : clusterMerge cs (scanMin dm).2.1 (scanMin dm).2.2 <;>
        rw [hcm] at heq <;> exact absurd heq (by simp)
    · intro hf
      exact hf.elim

/-- Inversion of a merged step under a realistic threshold. -/
theorem mergeStep_merged_inv {cs : List (List Nat)} {dm : Mat} {t : ℚ}
    {cs' : List (List Nat)} {dm' : Mat} (ht : t < 99)
    (h : mergeStep cs dm t = .merged cs' dm') :
    (scanMin dm).2.1 < (scanMin dm).2.2 ∧ (scanMin dm).2.2 < dm.length ∧
    (scanMin dm).1 < 99 ∧ ¬ t < (scanMin dm).1 ∧
    cs' = (cs.set (scanMin dm).2.1
      (cs.getD (scanMin dm).2.1 [] ++ cs.getD (scanMin dm).2.2 [])).eraseIdx
        (scanMin dm).2.2 ∧
    dm' = matrixMerge dm (scanMin dm).2.1 (scanMin dm).2.2 := by
  unfold mergeStep at h
  by_cases hgt : (scanMin dm).1 > t
  · rw [if_pos hgt] at h
    exact absurd h (by simp)
  · rw [if_neg hgt] at h
    rcases scanMin_cases dm with hs | ⟨h99, hlt, hrange, _⟩
    · exfalso
      rw [hs] at hgt
      exact hgt (by exact_mod_cast ht)
    · rw [clusterMerge_ne cs (by omega)] at h
      rw [MccStep.merged.injEq] at h
      exact ⟨hlt, hrange, h99, hgt, h.1.symm, h.2.symm⟩

/-- Under a realistic threshold the append loop can never hang. -/
theorem mergeStep_ne_diverged {cs : List (List Nat)} {dm : Mat} {t : ℚ}
    (ht : t < 99) : mergeStep cs dm t ≠ .diverged := by
  unfold mergeStep
  by_cases hgt : (scanMin dm).1 > t
  · rw [if_pos hgt]
    simp
  · rw [if_neg hgt]
    rcases scanMin_cases dm with hs | ⟨_, hlt, _, _⟩
    · exfalso
      rw [hs] at hgt
      exact hgt (by exact_mod_cast ht)
    · rw [clusterMerge_ne cs (by omega)]
      simp

theorem mergeClosestClusters_succ_of_term {cs : List (List Nat)} {dm : Mat}
    {t : ℚ} (fuel : Nat) (h : t < (scanMin dm).1) :
    mergeClosestClusters (fuel + 1) cs dm t = some cs := by
  rw [mergeClosestClusters, (mergeStep_terminated_iff cs dm t).mpr h]

theorem mergeClosestClusters_succ_of_merged {cs cs' : List (List Nat)}
    {dm dm' : Mat} {t : ℚ} (fuel : Nat) (h : mergeStep cs dm t = .merged cs' dm') :
    mergeClosestClusters (fuel + 1) cs dm t =
      mergeClosestClusters fuel cs' dm' t := by
  rw [mergeClosestClusters, h]

/-- Fuel `dm.length + 1` always suffices when the threshold is below the
sentinel: every merge removes one matrix row. -/
theorem mergeClosestClusters_isSome {t : ℚ} (ht : t < 99) :
    ∀ n (cs : List (List Nat)) (dm : Mat), dm.length ≤ n →
      (mergeClosestClusters (n + 1) cs dm t).isSome := by
  intro n
  induction n with
  | zero =>
      intro cs dm hd
      rw [mergeClosestClusters_succ_of_term 0
        (by rw [scanMin_of_small dm (by omega)]; exact_mod_cast ht)]
      rfl
  | succ n ih =>
      intro cs dm hd
      cases hstep : mergeStep cs dm t with
      | terminated =>
          rw [mergeClosestClusters, hstep]
          rfl
      | diverged => exact absurd hstep (mergeStep_ne_diverged ht)
      | merged cs' dm' =>
          rw [mergeClosestClusters_succ_of_merged _ hstep]
          obtain ⟨_, hrange, _, _, _, hdm'⟩ := mergeStep_merged_inv ht hstep
          refine ih cs' dm' ?_
          rw [hdm', matrixMerge_length dm _ _ hrange]
          omega

theorem buildRows_eq_foldl_steps (env : BuildEnv) (order : List Nat) :
    buildRows env order =
      (buildSteps env.keys.length order).foldl
        (fun s p => processCell env s p.1 p.2) ⟨initMatrix env.keys.length, []⟩ := by
  unfold buildRows
  generalize (⟨initMatrix env.keys.length, []⟩ : BuildState) = st
  induction order generalizing st with
  | nil => rfl
  | cons i order ih =>
      rw [List.foldl_cons, buildSteps, List.flatMap_cons, List.foldl_append, ih]
      congr 1
      rw [processRow, List.foldl_map]

theorem buildStateAt_full (env : BuildEnv) (order : List Nat) :
    buildStateAt env order (buildSteps env.keys.length order).length =
      buildRows env order := by
  rw [buildStateAt, List.take_length, buildRows_eq_foldl_steps]

theorem getCell_initMatrix (n i j : Nat) :
    getCell (initMatrix n) i j = if i < n ∧ j < n then 99 else 0 := by
  unfold getCell initMatrix
  have hrow : (List.replicate n (List.replicate n (99 : ℚ))).getD i [] =
      if i < n then List.replicate n (99 : ℚ) else [] := by
    rw [List.getD_eq_getElem?_getD, List.getElem?_replicate]
    split
    · rfl
    · rfl
  rw [hrow]
  by_cases hi : i < n
  · rw [if_pos hi]
    have hcol : (List.replicate n (99 : ℚ)).getD j 0 = if j < n then 99 else 0 := by
      rw [List.getD_eq_getElem?_getD, List.getElem?_replicate]
      split
      · rfl
      · rfl
    rw [hcol]
    by_cases hj : j < n
    · rw [if_pos hj, if_pos ⟨hi, hj⟩]
    · rw [if_neg hj, if_neg (fun h => hj h.2)]
  · rw [if_neg hi, if_neg (fun h => hi h.1), List.getD_nil]

theorem initMatrix_shape (n : Nat) : ShapeN (initMatrix n) n := by
  refine ⟨by simp [initMatrix], fun a => ?_⟩
  unfold initMatrix
  rw [List.getD_eq_getElem?_getD, List.getElem?_replicate]
  by_cases ha : a < n
  · rw [if_pos ha, if_pos ha]
    simp
  · rw [if_neg ha, if_neg ha]
    rfl

theorem processCell_shape {env : BuildEnv} {st : BuildState} {n i j : Nat}
    (h : ShapeN st.dm n) : ShapeN (processCell env st i j).dm n := by
  obtain ⟨h1, h2⟩ := h
  unfold processCell
  split
  · split
    · exact ⟨by rw [length_setCell, h1], fun a => by rw [rowlen_setCell]; exact h2 a⟩
    · split
      · exact ⟨by rw [length_setCell, length_setCell, h1],
          fun a => by rw [rowlen_setCell, rowlen_setCell]; exact h2 a⟩
      · split
        · exact ⟨by rw [length_setCell, length_setCell, h1],
            fun a => by rw [rowlen_setCell, rowlen_setCell]; exact h2 a⟩
        · exact ⟨by rw [length_setCell, length_setCell, h1],
            fun a => by rw [rowlen_setCell, rowlen_setCell]; exact h2 a⟩
  · exact ⟨h1, h2⟩

theorem symm_setCell_diag {dm : Mat} (h : Symm dm) (i : Nat) (v : ℚ) :
    Symm (setCell dm i i v) := by
  intro a b
  by_cases hab : a = i ∧ b = i
  · rw [hab.1, hab.2]
  · rw [getCell_setCell_ne _ _ _ _ _ _ hab,
      getCell_setCell_ne _ _ _ _ _ _ (fun hc => hab ⟨hc.2, hc.1⟩)]
    exact h a b

theorem symm_setCell_pair {dm : Mat} {n : ℕ} (hsh : ShapeN dm n) (h : Symm dm)
    {i j : Nat} (hij : i ≠ j) (hi : i < n) (hj : j < n) (v : ℚ) :
    Symm (setCell (setCell dm i j v) j i v) := by
  have hlen : dm.length = n := hsh.1
  have hrowi : (dm.getD i []).length = n := by rw [hsh.2 i, if_pos hi]
  have hrowj : ((setCell dm i j v).getD j []).length = n := by
    rw [rowlen_setCell, hsh.2 j, if_pos hj]
  intro a b
  by_cases hab1 : a = i ∧ b = j
  · rw [hab1.1, hab1.2,
      getCell_setCell_ne _ _ _ _ _ _ (fun hc => hij hc.1),
      getCell_setCell_self _ _ _ _ (by omega) (by omega),
      getCell_setCell_self _ _ _ _ (by rw [length_setCell]; omega) (by omega)]
  · by_cases hab2 : a = j ∧ b = i
    · rw [hab2.1, hab2.2,
        getCell_setCell_self _ _ _ _ (by rw [length_setCell]; omega) (by omega),
        getCell_setCell_ne _ _ _ _ _ _ (fun hc => hij hc.1),
        getCell_setCell_self _ _ _ _ (by omega) (by omega)]
    · rw [getCell_setCell_ne _ _ _ _ _ _ hab2, getCell_setCell_ne _ _ _ _ _ _ hab1,
        getCell_setCell_ne _ _ _ _ _ _ (fun hc => hab1 ⟨hc.2, hc.1⟩),
        getCell_setCell_ne _ _ _ _ _ _ (fun hc => hab2 ⟨hc.2, hc.1⟩)]
      exact h a b

/-- One cell step of the build keeps the matrix symmetric and the diagonal in
`{0, 99}` as long as the keys are distinct. -/
theorem processCell_symmDiag {env : BuildEnv} {st : BuildState} {i j : Nat}
    (hnd : env.keys.Nodup) (hi : i < env.keys.length) (hj : j < env.keys.length)
    (hsh : ShapeN st.dm env.keys.length) (h : SymmDiag st.dm) :
    SymmDiag (processCell env st i j).dm := by
  obtain ⟨hsym, hdiag⟩ := h
  obtain ⟨hsl, hsr⟩ := hsh
  have hkeys : env.keys.getD i 0 = env.keys.getD j 0 ↔ i = j := by
    rw [List.getD_eq_getElem _ _ hi, List.getD_eq_getElem _ _ hj]
    exact hnd.getElem_inj_iff
  unfold processCell
  split
  · split
    · next hk =>
        have hij : i = j := hkeys.mp hk
        subst hij
        refine ⟨symm_setCell_diag hsym i 0, fun r => ?_⟩
        by_cases hr : r = i
        · rw [hr]
          left
          exact getCell_setCell_self _ _ _ _ (by omega)
            (by rw [hsr i, if_pos hi]; omega)
        · rw [getCell_setCell_ne _ _ _ _ _ _ (fun hc => hr hc.1)]
          exact hdiag r
    · next hk =>
        have hij : i ≠ j := fun hc => hk (hc ▸ rfl)
        have hpair : ∀ v : ℚ, SymmDiag (setCell (setCell st.dm i j v) j i v) := by
          intro v
          refine ⟨symm_setCell_pair ⟨hsl, hsr⟩ hsym hij hi hj v, fun r => ?_⟩
          rw [getCell_setCell_ne _ _ _ _ _ _ (fun hc => hij (hc.2.symm.trans hc.1)),
            getCell_setCell_ne _ _ _ _ _ _ (fun hc => hij (hc.1.symm.trans hc.2))]
          exact hdiag r
        split
        · exact hpair 50
        · split
          · exact hpair _
          · exact hpair 10
  · exact ⟨hsym, hdiag⟩

theorem mem_buildSteps {n : Nat} {order : List Nat} {p : Nat × Nat} :
    p ∈ buildSteps n order ↔ p.1 ∈ order ∧ p.2 < n := by
  rcases p with ⟨i, j⟩
  simp only [buildSteps, List.mem_flatMap, List.mem_map, List.mem_range]
  constructor
  · rintro ⟨a, ha, b, hb, heq⟩
    obtain ⟨rfl, rfl⟩ : a = i ∧ b = j :=
      ⟨congrArg Prod.fst heq, congrArg Prod.snd heq⟩
    exact ⟨ha, hb⟩
  · rintro ⟨hi, hj⟩
    exact ⟨i, hi, j, hj, rfl⟩

/-- Any run of cell steps with in-range coordinates keeps the construction
invariant. -/
theorem foldl_symmDiag (env : BuildEnv) (hnd : env.keys.Nodup) :
    ∀ (l : List (Nat × Nat)) (st : BuildState),
      (∀ p ∈ l, p.1 < env.keys.length ∧ p.2 < env.keys.length) →
      ShapeN st.dm env.keys.length → SymmDiag st.dm →
      ShapeN ((l.foldl (fun s p => processCell env s p.1 p.2) st).dm)
          env.keys.length ∧
        SymmDiag ((l.foldl (fun s p => processCell env s p.1 p.2) st).dm) := by
  intro l
  induction l with
  | nil => intro st _ hsh hsd; exact ⟨hsh, hsd⟩
  | cons p ps ih =>
      intro st hmem hsh hsd
      rw [List.foldl_cons]
      refine ih _ (fun q hq => hmem q (List.mem_cons_of_mem p hq)) ?_ ?_
      · exact processCell_shape hsh
      · exact processCell_symmDiag hnd (hmem p (List.mem_cons_self p ps)).1
          (hmem p (List.mem_cons_self p ps)).2 hsh hsd

theorem initMatrix_symmDiag (n : Nat) : SymmDiag (initMatrix n) := by
  constructor
  · intro a b
    rw [getCell_initMatrix, getCell_initMatrix]
    by_cases h : a < n ∧ b < n
    · rw [if_pos h, if_pos ⟨h.2, h.1⟩]
    · rw [if_neg h, if_neg (fun hc => h ⟨hc.2, hc.1⟩)]
  · intro i
    rw [getCell_initMatrix]
    by_cases hi : i < n ∧ i < n
    · rw [if_pos hi]; right; rfl
    · rw [if_neg hi]; left; rfl

/-- Every intermediate state of the sequential build is symmetric with the
diagonal in `{0, 99}`. -/
theorem buildStateAt_symmDiag (env : BuildEnv) (hnd : env.keys.Nodup) (t : Nat) :
    ShapeN (buildStateAt env (List.range env.keys.length) t).dm env.keys.length ∧
      SymmDiag (buildStateAt env (List.range env.keys.length) t).dm := by
  unfold buildStateAt
  refine foldl_symmDiag env hnd _ _ (fun p hp => ?_) (initMatrix_shape _)
    (initMatrix_symmDiag _)
  have hp' := List.mem_of_mem_take hp
  rw [mem_buildSteps] at hp'
  exact ⟨List.mem_range.mp hp'.1, hp'.2⟩

/-- A write never takes effect out of range. -/
theorem setCell_oob {dm : Mat} {i j : Nat} (v : ℚ)
    (h : ¬(i < dm.length ∧ j < (dm.getD i []).length)) : setCell dm i j v = dm := by
  by_cases hi : i < dm.length
  · have hj : ¬ j < (dm.getD i []).length := fun hj => h ⟨hi, hj⟩
    unfold setCell
    rw [List.set_eq_of_length_le (α := ℚ) (by omega), set_getD_self]
  · unfold setCell
    exact List.set_eq_of_length_le (by omega)

theorem getCell_setCell_cases (dm : Mat) (i j : Nat) (v : ℚ) (a b : Nat) :
    getCell (setCell dm i j v) a b = getCell dm a b ∨
      getCell (setCell dm i j v) a b = v := by
  by_cases hab : a = i ∧ b = j
  · by_cases hin : i < dm.length ∧ j < (dm.getD i []).length
    · right
      rw [hab.1, hab.2]
      exact getCell_setCell_self dm i j v hin.1 hin.2
    · left
      rw [setCell_oob v hin]
  · left
    exact getCell_setCell_ne dm i j v a b hab

/-- After a cell step the diagonal entry `r` stays 0 once it is 0
(`i`, `j` in range, keys only needed to know a lone 0-write hits `(i, j)`). -/
theorem processCell_diag_preserve (env : BuildEnv) (st : BuildState) (i j r : Nat)
    (h : getCell st.dm r r = 0) :
    getCell (processCell env st i j).dm r r = 0 := by
  unfold processCell
  split
  · split
    · rcases getCell_setCell_cases st.dm i j 0 r r with hc | hc
      · exact hc.trans h
      · exact hc
    · next hk =>
        have hij : i ≠ j := fun hc => hk (hc ▸ rfl)
        split
        · rw [getCell_setCell_ne _ _ _ _ _ _ (fun hc => hij (hc.2.symm.trans hc.1)),
            getCell_setCell_ne _ _ _ _ _ _ (fun hc => hij (hc.1.symm.trans hc.2))]
          exact h
        · split
          · rw [getCell_setCell_ne _ _ _ _ _ _ (fun hc => hij (hc.2.symm.trans hc.1)),
              getCell_setCell_ne _ _ _ _ _ _ (fun hc => hij (hc.1.symm.trans hc.2))]
            exact h
          · rw [getCell_setCell_ne _ _ _ _ _ _ (fun hc => hij (hc.2.symm.trans hc.1)),
              getCell_setCell_ne _ _ _ _ _ _ (fun hc => hij (hc.1.symm.trans hc.2))]
            exact h
  · exact h

/-- Processing the diagonal step `(i, i)` leaves that diagonal cell at 0. -/
theorem processCell_diag_self (env : BuildEnv) (st : BuildState) (i : Nat)
    (hi : i < env.keys.length) (hsh : ShapeN st.dm env.keys.length)
    (hd : getCell st.dm i i = 0 ∨ getCell st.dm i i = 99) :
    getCell (processCell env st i i).dm i i = 0 := by
  obtain ⟨hs1, hs2⟩ := hsh
  unfold processCell
  by_cases h99 : getCell st.dm i i = 99
  · rw [if_pos h99, if_pos rfl]
    exact getCell_setCell_self _ _ _ _ (by omega)
      (by rw [hs2 i, if_pos hi]; omega)
  · rw [if_neg h99]
    rcases hd with h0 | hs
    · exact h0
    · exact absurd hs h99

theorem foldl_diag_zero (env : BuildEnv) :
    ∀ (l : List (Nat × Nat)) (st : BuildState) (r : Nat),
      getCell st.dm r r = 0 →
      getCell ((l.foldl (fun s p => processCell env s p.1 p.2) st).dm) r r = 0 := by
  intro l
  induction l with
  | nil => intro st r h; exact h
  | cons p ps ih =>
      intro st r h
      rw [List.foldl_cons]
      exact ih _ r (processCell_diag_preserve env st p.1 p.2 r h)

/-- The finished sequential build has a zero diagonal. -/
theorem makeDistanceMatrix_diag (env : BuildEnv) (hnd : env.keys.Nodup) :
    ∀ i, i < env.keys.length → getCell (makeDistanceMatrix env) i i = 0 := by
  intro i hi
  have hmem : ((i, i) : Nat × Nat) ∈
      buildSteps env.keys.length (List.range env.keys.length) :=
    mem_buildSteps.mpr ⟨List.mem_range.mpr hi, hi⟩
  obtain ⟨l1, l2, hdec⟩ := List.append_of_mem hmem
  rw [makeDistanceMatrix, buildRows_eq_foldl_steps, hdec, List.foldl_append,
    List.foldl_cons]
  have hl1 : ∀ p ∈ l1, p.1 < env.keys.length ∧ p.2 < env.keys.length := by
    intro p hp
    have : p ∈ buildSteps env.keys.length (List.range env.keys.length) := by
      rw [hdec]
      exact List.mem_append_left _ hp
    rw [mem_buildSteps] at this
    exact ⟨List.mem_range.mp this.1, this.2⟩
  obtain ⟨hsh1, hsd1⟩ := foldl_symmDiag env hnd l1 ⟨initMatrix env.keys.length, []⟩
    hl1 (initMatrix_shape _) (initMatrix_symmDiag _)
  exact foldl_diag_zero env l2 _ i
    (processCell_diag_self env _ i hi hsh1 (hsd1.2 i))

/-- The finished sequential build is symmetric. -/
theorem makeDistanceMatrix_symm (env : BuildEnv) (hnd : env.keys.Nodup) :
    Symm (makeDistanceMatrix env) := by
  have h := buildStateAt_symmDiag env hnd
    (buildSteps env.keys.length (List.range env.keys.length)).length
  rw [buildStateAt_full] at h
  exact h.2.1

theorem makeDistanceMatrix_shape (env : BuildEnv) (hnd : env.keys.Nodup) :
    ShapeN (makeDistanceMatrix env) env.keys.length := by
  have h := buildStateAt_symmDiag env hnd
    (buildSteps env.keys.length (List.range env.keys.length)).length
  rw [buildStateAt_full] at h
  exact h.1

theorem getCell_setPair_self1 {dm : Mat} {n : Nat} (hsh : ShapeN dm n) {i j : Nat}
    (hij : i ≠ j) (hi : i < n) (hj : j < n) (v : ℚ) :
    getCell (setCell (setCell dm i j v) j i v) i j = v := by
  have h1 := hsh.1
  rw [getCell_setCell_ne _ _ _ _ _ _ (fun hc => hij hc.1),
    getCell_setCell_self _ _ _ _ (by omega) (by rw [hsh.2 i, if_pos hi]; omega)]

theorem getCell_setPair_self2 {dm : Mat} {n : Nat} (hsh : ShapeN dm n) {i j : Nat}
    (hi : i < n) (hj : j < n) (v : ℚ) :
    getCell (setCell (setCell dm i j v) j i v) j i = v := by
  have h1 := hsh.1
  exact getCell_setCell_self _ _ _ _ (by rw [length_setCell]; omega)
    (by rw [rowlen_setCell, hsh.2 j, if_pos hj]; omega)

theorem getCell_setPair_ne {dm : Mat} {i j a b : Nat} (v : ℚ)
    (hab1 : ¬(a = i ∧ b = j)) (hab2 : ¬(a = j ∧ b = i)) :
    getCell (setCell (setCell dm i j v) j i v) a b = getCell dm a b := by
  rw [getCell_setCell_ne _ _ _ _ _ _ hab2, getCell_setCell_ne _ _ _ _ _ _ hab1]

/-- With a direction-symmetric gate and comparator, the value a pair receives
does not depend on which row computes it. -/
theorem cellValue_symm (env : BuildEnv)
    (Hg : ∀ a b, gateFail env.slen env.L a b ↔ gateFail env.slen env.L b a)
    (Hc : ∀ a b, env.cmp a b = env.cmp b a) (i j : Nat) :
    cellValue env i j = cellValue env j i := by
  unfold cellValue
  by_cases hk : env.keys.getD i 0 = env.keys.getD j 0
  · rw [if_pos hk, if_pos hk.symm]
  · rw [if_neg hk,
      if_neg (show ¬ env.keys.getD j 0 = env.keys.getD i 0 from fun h => hk h.symm)]
    by_cases hg : gateFail env.slen env.L (env.keys.getD i 0) (env.keys.getD j 0)
    · rw [if_pos hg, if_pos ((Hg _ _).mp hg)]
    · rw [if_neg hg,
        if_neg (show ¬ gateFail env.slen env.L (env.keys.getD j 0) (env.keys.getD i 0)
          from fun h => hg ((Hg _ _).mp h)),
        Hc]

/-- Effect of one cell step under symmetric gate/comparator: shape and
`CellsOK` persist, the processed cell reaches its value, and any cell already
carrying its value keeps it. -/
theorem processCell_c8 (env : BuildEnv)
    (Hg : ∀ a b, gateFail env.slen env.L a b ↔ gateFail env.slen env.L b a)
    (Hc : ∀ a b, env.cmp a b = env.cmp b a) {st : BuildState} {i j : Nat}
    (hi : i < env.keys.length) (hj : j < env.keys.length)
    (hsh : ShapeN st.dm env.keys.length) (hok : CellsOK env st.dm) :
    CellsOK env (processCell env st i j).dm ∧
    getCell (processCell env st i j).dm i j = cellValue env i j ∧
    (∀ a b, getCell st.dm a b = cellValue env a b →
      getCell (processCell env st i j).dm a b = cellValue env a b) := by
  have hvji : cellValue env j i = cellValue env i j := cellValue_symm env Hg Hc j i
  unfold processCell
  by_cases h99 : getCell st.dm i j = 99
  · rw [if_pos h99]
    by_cases hk : env.keys.getD i 0 = env.keys.getD j 0
    · rw [if_pos hk]
      have hv : cellValue env i j = 0 := by rw [cellValue, if_pos hk]
      have hself : getCell (setCell st.dm i j 0) i j = 0 :=
        getCell_setCell_self _ _ _ _ (by have := hsh.1; omega)
          (by rw [hsh.2 i, if_pos hi]; omega)
      refine ⟨fun a b ha hb => ?_, by rw [hself, hv], fun a b hab => ?_⟩
      · by_cases habij : a = i ∧ b = j
        · right
          rw [habij.1, habij.2, hself, hv]
        · rw [getCell_setCell_ne _ _ _ _ _ _ habij]
          exact hok a b ha hb
      · by_cases habij : a = i ∧ b = j
        · rw [habij.1, habij.2, hself, hv]
        · rw [getCell_setCell_ne _ _ _ _ _ _ habij]
          exact hab
    · rw [if_neg hk]
      have hij : i ≠ j := fun hc => hk (hc ▸ rfl)
      have hpair : ∀ v : ℚ, v = cellValue env i j →
          CellsOK env (setCell (setCell st.dm i j v) j i v) ∧
          getCell (setCell (setCell st.dm i j v) j i v) i j = cellValue env i j ∧
          (∀ a b, getCell st.dm a b = cellValue env a b →
            getCell (setCell (setCell st.dm i j v) j i v) a b
              = cellValue env a b) := by
        intro v hv
        have hs1 : getCell (setCell (setCell st.dm i j v) j i v) i j = v :=
          getCell_setPair_self1 hsh hij hi hj v
        have hs2 : getCell (setCell (setCell st.dm i j v) j i v) j i = v :=
          getCell_setPair_self2 hsh hi hj v
        refine ⟨fun a b ha hb => ?_, by rw [hs1, hv], fun a b hab => ?_⟩
        · by_cases hab1 : a = i ∧ b = j
          · right
            rw [hab1.1, hab1.2, hs1]
            exact hv
          · by_cases hab2 : a = j ∧ b = i
            · right
              rw [hab2.1, hab2.2, hs2]
              exact hv.trans hvji.symm
            · rw [getCell_setPair_ne v hab1 hab2]
              exact hok a b ha hb
        · by_cases hab1 : a = i ∧ b = j
          · rw [hab1.1, hab1.2, hs1]
            exact hv
          · by_cases hab2 : a = j ∧ b = i
            · rw [hab2.1, hab2.2, hs2]
              exact hv.trans hvji.symm
            · rw [getCell_setPair_ne v hab1 hab2]
              exact hab
      by_cases hg : gateFail env.slen env.L (env.keys.getD i 0) (env.keys.getD j 0)
      · rw [if_pos hg]
        exact hpair 50 (by rw [cellValue, if_neg hk, if_pos hg])
      · rw [if_neg hg]
        cases hcm : env.cmp (env.keys.getD i 0) (env.keys.getD j 0) with
        | none => exact hpair 10 (by rw [cellValue, if_neg hk, if_neg hg, hcm])
        | some e => exact hpair e (by rw [cellValue, if_neg hk, if_neg hg, hcm])
  · rw [if_neg h99]
    rcases hok i j hi hj with h | h
    · exact absurd h h99
    · exact ⟨hok, h, fun a b hab => hab⟩

/-- A row index beyond the matrix never fires any write: every cell read of
that row yields the default 0, not the sentinel. -/
theorem processCell_oob {env : BuildEnv} {st : BuildState} {i j : Nat}
    (hsh : ShapeN st.dm env.keys.length) (hi : ¬ i < env.keys.length) :
    processCell env st i j = st := by
  unfold processCell
  rw [if_neg]
  have hrow : st.dm.getD i [] = [] := by
    rw [List.getD_eq_getElem?_getD, List.getElem?_eq_none (by rw [hsh.1]; omega)]
    rfl
  rw [getCell, hrow]
  norm_num

theorem processRow_oob {env : BuildEnv} {st : BuildState} {i : Nat}
    (hsh : ShapeN st.dm env.keys.length) (hi : ¬ i < env.keys.length) :
    processRow env st i = st := by
  unfold processRow
  generalize List.range env.keys.length = jl
  induction jl with
  | nil => rfl
  | cons j jl ih => rw [List.foldl_cons, processCell_oob hsh hi, ih]

/-- Running one claimed row to completion under symmetric gate/comparator. -/
theorem processRow_c8 (env : BuildEnv)
    (Hg : ∀ a b, gateFail env.slen env.L a b ↔ gateFail env.slen env.L b a)
    (Hc : ∀ a b, env.cmp a b = env.cmp b a) (i : Nat) (hi : i < env.keys.length) :
    ∀ (jl : List Nat) (st : BuildState), (∀ j ∈ jl, j < env.keys.length) →
      ShapeN st.dm env.keys.length → CellsOK env st.dm →
      ShapeN ((jl.foldl (fun s j => processCell env s i j) st).dm) env.keys.length ∧
      CellsOK env ((jl.foldl (fun s j => processCell env s i j) st).dm) ∧
      (∀ a b, getCell st.dm a b = cellValue env a b →
        getCell ((jl.foldl (fun s j => processCell env s i j) st).dm) a b
          = cellValue env a b) ∧
      (∀ j ∈ jl, getCell ((jl.foldl (fun s j => processCell env s i j) st).dm) i j
        = cellValue env i j) := by
  intro jl
  induction jl with
  | nil =>
      intro st _ hsh hok
      exact ⟨hsh, hok, fun a b hab => hab, fun j hj => absurd hj (by simp)⟩
  | cons j jl ih =>
      intro st hmem hsh hok
      rw [List.foldl_cons]
      have hj : j < env.keys.length := hmem j (List.mem_cons_self j jl)
      obtain ⟨hok', hcell, hpres⟩ := processCell_c8 env Hg Hc hi hj hsh hok
      have hsh' : ShapeN (processCell env st i j).dm env.keys.length :=
        processCell_shape hsh
      obtain ⟨fsh, fok, fpres, fdone⟩ :=
        ih (processCell env st i j) (fun q hq => hmem q (List.mem_cons_of_mem j hq))
          hsh' hok'
      refine ⟨fsh, fok, fun a b hab => fpres a b (hpres a b hab), fun q hq => ?_⟩
      rcases List.mem_cons.mp hq with rfl | hq'
      · exact fpres i q hcell
      · exact fdone q hq'

/-- After the whole build, every row claimed in `order` carries its final
values. -/
theorem buildRows_c8 (env : BuildEnv)
    (Hg : ∀ a b, gateFail env.slen env.L a b ↔ gateFail env.slen env.L b a)
    (Hc : ∀ a b, env.cmp a b = env.cmp b a) :
    ∀ (order : List Nat) (st : BuildState), ShapeN st.dm env.keys.length →
      CellsOK env st.dm →
      ShapeN ((order.foldl (processRow env) st).dm) env.keys.length ∧
      CellsOK env ((order.foldl (processRow env) st).dm) ∧
      (∀ a b, getCell st.dm a b = cellValue env a b →
        getCell ((order.foldl (processRow env) st).dm) a b = cellValue env a b) ∧
      (∀ r ∈ order, r < env.keys.length →
        RowDone env ((order.foldl (processRow env) st).dm) r) := by
  intro order
  induction order with
  | nil =>
      intro st hsh hok
      exact ⟨hsh, hok, fun a b hab => hab, fun r hr => absurd hr (by simp)⟩
  | cons r order ih =>
      intro st hsh hok
      rw [List.foldl_cons]
      by_cases hr : r < env.keys.length
      · obtain ⟨hsh', hok', hpres, hdone⟩ :=
          processRow_c8 env Hg Hc r hr (List.range env.keys.length) st
            (fun j hj => List.mem_range.mp hj) hsh hok
        obtain ⟨fsh, fok, fpres, fdone⟩ := ih (processRow env st r) hsh' hok'
        refine ⟨fsh, fok, fun a b hab => fpres a b (hpres a b hab), fun q hq hqn => ?_⟩
        rcases List.mem_cons.mp hq with rfl | hq'
        · intro j hjn
          exact fpres q j (hdone j (List.mem_range.mpr hjn))
        · exact fdone q hq' hqn
      · rw [processRow_oob hsh hr]
        obtain ⟨fsh, fok, fpres, fdone⟩ := ih st hsh hok
        refine ⟨fsh, fok, fpres, fun q hq hqn => ?_⟩
        rcases List.mem_cons.mp hq with rfl | hq'
        · exact absurd hqn hr
        · exact fdone q hq' hqn

/-- Two matrices of the same square shape agreeing on all in-range cells are
equal as lists of lists. -/
theorem mat_eq_of_cells {M1 M2 : Mat} {n : Nat} (h1 : ShapeN M1 n)
    (h2 : ShapeN M2 n) (h : ∀ i j, i < n → j < n → getCell M1 i j = getCell M2 i j) :
    M1 = M2 := by
  apply List.ext_getElem?
  intro r
  by_cases hr : r < n
  · have hr1 : r < M1.length := by rw [h1.1]; omega
    have hr2 : r < M2.length := by rw [h2.1]; omega
    rw [List.getElem?_eq_getElem hr1, List.getElem?_eq_getElem hr2]
    have hrow1 : M1[r] = M1.getD r [] := (List.getD_eq_getElem M1 [] hr1).symm
    have hrow2 : M2[r] = M2.getD r [] := (List.getD_eq_getElem M2 [] hr2).symm
    congr 1
    rw [hrow1, hrow2]
    apply List.ext_getElem?
    intro c
    by_cases hc : c < n
    · have hc1 : c < (M1.getD r []).length := by rw [h1.2 r, if_pos hr]; omega
      have hc2 : c < (M2.getD r []).length := by rw [h2.2 r, if_pos hr]; omega
      rw [List.getElem?_eq_getElem hc1, List.getElem?_eq_getElem hc2]
      have e1 : (M1.getD r [])[c] = getCell M1 r c :=
        (List.getD_eq_getElem (M1.getD r []) 0 hc1).symm
      have e2 : (M2.getD r [])[c] = getCell M2 r c :=
        (List.getD_eq_getElem (M2.getD r []) 0 hc2).symm
      rw [e1, e2, h r c hr hc]
    · rw [List.getElem?_eq_none (by rw [h1.2 r, if_pos hr]; omega),
        List.getElem?_eq_none (by rw [h2.2 r, if_pos hr]; omega)]
  · rw [List.getElem?_eq_none (by rw [h1.1]; omega),
      List.getElem?_eq_none (by rw [h2.1]; omega)]

/-- Any complete (covering) claim order produces the same matrix: the matrix
of the `cellValue`s. -/
theorem buildRows_getCell_of_cover (env : BuildEnv)
    (Hg : ∀ a b, gateFail env.slen env.L a b ↔ gateFail env.slen env.L b a)
    (Hc : ∀ a b, env.cmp a b = env.cmp b a) (order : List Nat)
    (hcov : ∀ i, i < env.keys.length → i ∈ order) :
    ∀ i j, i < env.keys.length → j < env.keys.length →
      getCell (buildRows env order).dm i j = cellValue env i j := by
  intro i j hi hj
  obtain ⟨_, _, _, hdone⟩ := buildRows_c8 env Hg Hc order
    ⟨initMatrix env.keys.length, []⟩ (initMatrix_shape _) (fun a b ha hb => by
      rw [getCell_initMatrix, if_pos ⟨ha, hb⟩]
      exact Or.inl rfl)
  exact hdone i (hcov i hi) hi j hj

theorem shapeN_iff (dm : Mat) (n : Nat) : ShapeN dm n ↔ dm.length = n ∧ Square dm := by
  constructor
  · rintro ⟨h1, h2⟩
    refine ⟨h1, fun i hi => ?_⟩
    rw [h2 i, if_pos (by omega), h1]
  · rintro ⟨h1, h2⟩
    refine ⟨h1, fun a => ?_⟩
    by_cases ha : a < n
    · rw [if_pos ha, h2 a (by omega), h1]
    · rw [if_neg ha]
      have : dm.getD a [] = [] := by
        rw [List.getD_eq_getElem?_getD, List.getElem?_eq_none (by omega)]
        rfl
      rw [this]
      rfl

theorem mem_foldl_append {P : Nat → Prop} [DecidablePred P] :
    ∀ (keys acc : List Nat) (c : Nat),
      c ∈ keys.foldl (fun cl k => if P k then cl ++ [k] else cl) acc ↔
        c ∈ acc ∨ (c ∈ keys ∧ P c) := by
  intro keys
  induction keys with
  | nil => intro acc c; simp
  | cons k keys ih =>
      intro acc c
      rw [List.foldl_cons, ih]
      by_cases hk : P k
      · rw [if_pos hk]
        constructor
        · rintro (hc | hc)
          · rcases List.mem_append.mp hc with hc' | hc'
            · exact Or.inl hc'
            · rcases List.mem_singleton.mp hc' with rfl
              exact Or.inr ⟨List.mem_cons_self _ _, hk⟩
          · exact Or.inr ⟨List.mem_cons_of_mem _ hc.1, hc.2⟩
        · rintro (hc | ⟨hc1, hc2⟩)
          · exact Or.inl (List.mem_append_left _ hc)
          · rcases List.mem_cons.mp hc1 with rfl | hc1'
            · exact Or.inl (List.mem_append_right _ (List.mem_singleton.mpr rfl))
            · exact Or.inr ⟨hc1', hc2⟩
      · rw [if_neg hk]
        constructor
        · rintro (hc | hc)
          · exact Or.inl hc
          · exact Or.inr ⟨List.mem_cons_of_mem _ hc.1, hc.2⟩
        · rintro (hc | ⟨hc1, hc2⟩)
          · exact Or.inl hc
          · rcases List.mem_cons.mp hc1 with rfl | hc1'
            · exact absurd hc2 hk
            · exact Or.inr ⟨hc1', hc2⟩

theorem mem_guidedCluster {env : GuidedEnv} {keys : List Nat} {g c : Nat} :
    c ∈ guidedCluster env keys g ↔
      c ∈ keys ∧ guidedGate env g c ∧ env.hit g c := by
  unfold guidedCluster
  rw [mem_foldl_append keys [] c]
  simp

theorem claims_invariant :
    ∀ (trace : List (Nat × Nat)) (s : ClaimState),
      ((s.assigned.map Prod.snd).Nodup ∧ ∀ p ∈ s.assigned, p.2 ∈ s.claimed) →
      (((trace.foldl (fun s t => claimStep s t.1 t.2) s).assigned.map
          Prod.snd).Nodup ∧
        ∀ p ∈ (trace.foldl (fun s t => claimStep s t.1 t.2) s).assigned,
          p.2 ∈ (trace.foldl (fun s t => claimStep s t.1 t.2) s).claimed) := by
  intro trace
  induction trace with
  | nil => intro s hs; exact hs
  | cons t ts ih =>
      intro s hs
      rw [List.foldl_cons]
      refine ih _ ?_
      unfold claimStep
      by_cases hk : t.2 ∈ s.claimed
      · rw [if_pos hk]
        exact hs
      · rw [if_neg hk]
        constructor
        · rw [List.map_cons, List.nodup_cons]
          exact ⟨fun hmem => by
            obtain ⟨p, hp, hp2⟩ := List.mem_map.mp hmem
            exact hk (hp2 ▸ hs.2 p hp), hs.1⟩
        · intro p hp
          rcases List.mem_cons.mp hp with rfl | hp'
          · exact List.mem_cons_self _ _
          · exact List.mem_cons_of_mem _ (hs.2 p hp')

theorem nodup_snd_unique {l : List (Nat × Nat)} (hnd : (l.map Prod.snd).Nodup)
    {w1 w2 k : Nat} (h1 : (w1, k) ∈ l) (h2 : (w2, k) ∈ l) : w1 = w2 := by
  induction l with
  | nil => cases h1
  | cons p l ih =>
      rw [List.map_cons, List.nodup_cons] at hnd
      rcases List.mem_cons.mp h1 with h1h | h1' <;>
        rcases List.mem_cons.mp h2 with h2h | h2'
      · rw [← h2h] at h1h
        exact (Prod.mk.injEq _ _ _ _ ▸ h1h).1
      · exfalso
        apply hnd.1
        rw [← h1h]
        exact List.mem_map.mpr ⟨(w2, k), h2', rfl⟩
      · exfalso
        apply hnd.1
        rw [← h2h]
        exact List.mem_map.mpr ⟨(w1, k), h1', rfl⟩
      · exact ih hnd.2 h1' h2'

theorem getCell_oob {dm : Mat} {n i j : Nat} (hlen : dm.length = n)
    (hsq : Square dm) (h : ¬(i < n ∧ j < n)) : getCell dm i j = 0 := by
  by_cases hi : i < n
  · have hj : ¬ j < n := fun hj => h ⟨hi, hj⟩
    unfold getCell
    rw [List.getD_eq_getElem?_getD (dm.getD i []) j 0,
      List.getElem?_eq_none (by rw [hsq i (by omega), hlen]; omega)]
    rfl
  · unfold getCell
    rw [List.getD_eq_getElem?_getD dm i [], List.getElem?_eq_none (by omega)]
    rfl

/-- The merge of `y` into `x` preserves all four matrix invariants. -/
theorem matrixMerge_invariants (dm : Mat) {x y : Nat} (hxy : x < y)
    (hy : y < dm.length) (hsq : Square dm) (hsym : Symm dm) (hdz : DiagZero dm)
    (hnn : Nonneg dm) :
    Square (matrixMerge dm x y) ∧ Symm (matrixMerge dm x y) ∧
      DiagZero (matrixMerge dm x y) ∧ Nonneg (matrixMerge dm x y) := by
  have hx : x < dm.length := by omega
  have hfull := updLoop_getCell_full dm hxy hsq hx
  have hU : ∀ a b, getCell (updLoop dm x y dm.length) a b
      = getCell (updLoop dm x y dm.length) b a := by
    intro a b
    rw [hfull a b, hfull b a]
    by_cases hax : a = x
    · by_cases hbx : b = x
      · rw [hax, hbx]
      · rw [if_pos hax, if_neg hbx, if_pos hax]
        by_cases hc : b < dm.length ∧ updCond dm x y b
        · rw [if_pos hc, if_pos hc]
        · rw [if_neg hc, if_neg hc]
          exact hsym x b
    · by_cases hbx : b = x
      · rw [if_neg hax, if_pos hbx, if_pos hbx]
        by_cases hc : a < dm.length ∧ updCond dm x y a
        · rw [if_pos hc, if_pos hc]
        · rw [if_neg hc, if_neg hc]
          exact hsym a x
      · rw [if_neg hax, if_neg hbx, if_neg hbx, if_neg hax]
        exact hsym a b
  refine ⟨matrixMerge_square dm x y hsq hy, ?_, ?_, ?_⟩
  · intro a b
    rw [getCell_matrixMerge dm hx hsq a b, getCell_matrixMerge dm hx hsq b a]
    exact hU _ _
  · intro a ha
    rw [matrixMerge_length dm x y hy] at ha
    rw [getCell_matrixMerge dm hx hsq a a]
    have hua : (if a < y then a else a + 1) < dm.length := by
      by_cases h : a < y
      · rw [if_pos h]; omega
      · rw [if_neg h]; omega
    rw [hfull]
    by_cases hax : (if a < y then a else a + 1) = x
    · rw [if_pos hax, hax]
      rw [if_neg]
      · exact hdz x hx
      · rintro ⟨_, hc⟩
        unfold updCond at hc
        rw [hdz x hx] at hc
        exact absurd hc (not_lt.mpr (hnn y x))
    · rw [if_neg hax, if_neg hax]
      exact hdz _ hua
  · intro a b
    rw [getCell_matrixMerge dm hx hsq a b, hfull]
    by_cases hax : (if a < y then a else a + 1) = x
    · rw [if_pos hax]
      by_cases hc : (if b < y then b else b + 1) < dm.length ∧
          updCond dm x y (if b < y then b else b + 1)
      · rw [if_pos hc]
        exact hnn _ _
      · rw [if_neg hc]
        exact hnn _ _
    · rw [if_neg hax]
      by_cases hbx : (if b < y then b else b + 1) = x
      · rw [if_pos hbx]
        by_cases hc : (if a < y then a else a + 1) < dm.length ∧
            updCond dm x y (if a < y then a else a + 1)
        · rw [if_pos hc]
          exact hnn _ _
        · rw [if_neg hc]
          exact hnn _ _
      · rw [if_neg hbx]
        exact hnn _ _

/-- Every merge performed by the engine preserves the matrix invariants. -/
theorem mergeStep_preserves_inv {cs : List (List Nat)} {dm : Mat} {t : ℚ}
    {cs' : List (List Nat)} {dm' : Mat} (ht : t < 99) (hsq : Square dm)
    (hsym : Symm dm) (hdz : DiagZero dm) (hnn : Nonneg dm)
    (h : mergeStep cs dm t = .merged cs' dm') :
    Square dm' ∧ Symm dm' ∧ DiagZero dm' ∧ Nonneg dm' := by
  obtain ⟨hlt, hrange, _, _, _, hdm'⟩ := mergeStep_merged_inv ht h
  rw [hdm']
  exact matrixMerge_invariants dm hlt hrange hsq hsym hdz hnn

/-- The single-linkage formula for the merged row and column. -/
theorem matrixMerge_single_linkage (dm : Mat) {x y k : Nat} (hxy : x < y)
    (hy : y < dm.length) (hk : k < dm.length) (hky : k ≠ y) (hsq : Square dm)
    (hsym : Symm dm) :
    getCell (matrixMerge dm x y) x (if k < y then k else k - 1) =
      min (getCell dm x k) (getCell dm y k) ∧
    getCell (matrixMerge dm x y) (if k < y then k else k - 1) x =
      min (getCell dm x k) (getCell dm y k) := by
  have hx : x < dm.length := by omega
  have hfull := updLoop_getCell_full dm hxy hsq hx
  have hux : (if x < y then x else x + 1) = x := if_pos hxy
  have huk : (if (if k < y then k else k - 1) < y then (if k < y then k else k - 1)
      else (if k < y then k else k - 1) + 1) = k := by
    by_cases h : k < y
    · rw [if_pos h, if_pos h]
    · rw [if_neg h, if_neg (by omega)]
      omega
  have hmin : ∀ m : Nat, m < dm.length →
      (if m < dm.length ∧ updCond dm x y m then getCell dm y m else getCell dm x m)
        = min (getCell dm x m) (getCell dm y m) := by
    intro m hm
    by_cases hc : updCond dm x y m
    · rw [if_pos ⟨hm, hc⟩, min_eq_right (le_of_lt hc)]
    · rw [if_neg (fun hh => hc hh.2), min_eq_left (le_of_not_lt hc)]
  constructor
  · rw [getCell_matrixMerge dm hx hsq, hux, huk, hfull, if_pos rfl, hmin k hk]
  · rw [getCell_matrixMerge dm hx hsq, hux, huk, hfull]
    by_cases hkx : k = x
    · rw [if_pos hkx, hkx, hmin x hx]
    · rw [if_neg hkx, if_pos rfl]
      by_cases hc : updCond dm x y k
      · rw [if_pos ⟨hk, hc⟩, min_eq_right (le_of_lt hc)]
      · rw [if_neg (fun hh => hc hh.2), hsym k x,
          min_eq_left (le_of_not_lt hc)]

/-- With one non-empty cluster left and a threshold at or above the sentinel,
the body attempts to merge cluster 0 into itself and hangs in the append
loop. -/
theorem mergeStep_self_diverged {t : ℚ} (ht : 99 ≤ t) (k : Nat) :
    mergeStep [[k]] [[(0 : ℚ)]] t = .diverged := by
  have hs : scanMin [[(0 : ℚ)]] = (99, 0, 0) := scanMin_of_small _ (by simp)
  unfold mergeStep
  rw [hs, if_neg (not_lt.mpr ht)]
  have hcm : clusterMerge [[k]] ((99 : ℚ), (0 : ℕ), (0 : ℕ)).2.1
      ((99 : ℚ), (0 : ℕ), (0 : ℕ)).2.2 = none :=
    clusterMerge_self [[k]] (by simp) (by simp)
  rw [hcm]

/-- Non-termination of the self-merge: `none` at every fuel. -/
theorem mergeClosestClusters_self_none {t : ℚ} (ht : 99 ≤ t) (k : Nat) :
    ∀ fuel, mergeClosestClusters fuel [[k]] [[(0 : ℚ)]] t = none := by
  intro fuel
  cases fuel with
  | zero => rfl
  | succ fuel => rw [mergeClosestClusters, mergeStep_self_diverged ht k]

theorem buildRows_shape (env : BuildEnv) (order : List Nat) :
    ShapeN (buildRows env order).dm env.keys.length := by
  unfold buildRows
  generalize hst : (⟨initMatrix env.keys.length, []⟩ : BuildState) = st
  have hsh : ShapeN st.dm env.keys.length := by
    rw [← hst]
    exact initMatrix_shape _
  clear hst
  induction order generalizing st with
  | nil => exact hsh
  | cons r order ih =>
      rw [List.foldl_cons]
      refine ih _ ?_
      unfold processRow
      generalize List.range env.keys.length = jl
      induction jl generalizing st with
      | nil => exact hsh
      | cons j jl ihj =>
          rw [List.foldl_cons]
          exact ihj _ (processCell_shape hsh)

theorem dmW_square : Square dmW := by
  intro i hi
  have hi3 : i < 3 := by simpa [dmW] using hi
  interval_cases i <;> rfl

theorem dmW_symm : Symm dmW := by
  intro i j
  by_cases hij : i < 3 ∧ j < 3
  · obtain ⟨hi, hj⟩ := hij
    interval_cases i <;> interval_cases j <;> rfl
  · rw [getCell_oob (n := 3) (show dmW.length = 3 from rfl) dmW_square hij,
      getCell_oob (n := 3) (show dmW.length = 3 from rfl) dmW_square (fun hc => hij ⟨hc.2, hc.1⟩)]

theorem dmW_diag : DiagZero dmW := by
  intro i hi
  have hi3 : i < 3 := by simpa [dmW] using hi
  interval_cases i <;> rfl

theorem dmW_nonneg : Nonneg dmW := by
  intro i j
  by_cases hij : i < 3 ∧ j < 3
  · obtain ⟨hi, hj⟩ := hij
    interval_cases i <;> interval_cases j <;> decide
  · rw [getCell_oob (n := 3) (show dmW.length = 3 from rfl) dmW_square hij]

theorem scanMin_dmW : scanMin dmW = (1, 0, 1) := by
  rw [scanMin_eq_scanFold]
  decide

/-! ## C1 -/

/-- C1, counterexample.  The claim says the engine terminates and returns the
current cluster list for every cluster list and matrix, in particular when
only one cluster remains.  With clusters `[[0]]`, matrix `[[0]]` and threshold
99, the scan leaves `(99, 0, 0)`, `99 > 99` is false, and the body merges
cluster 0 into itself: the Python append loop iterates the very list it grows
and never finishes, so nothing is ever returned (shown here at fuel 100;
`mergeClosestClusters_self_none` gives `none` at every fuel). -/
theorem c1_counterexample :
    mergeStep [[0]] [[(0 : ℚ)]] 99 = .diverged ∧
      mergeClosestClusters 100 [[0]] [[(0 : ℚ)]] 99 = none :=
  ⟨mergeStep_self_diverged le_rfl 0, mergeClosestClusters_self_none le_rfl 0 100⟩

/-- C1 (amended): provided the threshold is strictly below the scan sentinel
99, `merge_closest_clusters` terminates for every cluster list and matrix
(fuel `dm.length + 1` suffices), returns the current cluster list exactly when
the minimum found by the scan exceeds the threshold, the scan of at most one
cluster leaves the minimum at 99 (so a single remaining cluster terminates),
and in every other state it performs a merge, removing exactly one cluster and
one matrix row, and continues. -/
theorem c1_termination_behaviour :
    ∀ (cs : List (List Nat)) (dm : Mat) (t : ℚ), t < 99 →
      (mergeClosestClusters (dm.length + 1) cs dm t).isSome ∧
      (mergeStep cs dm t = .terminated ↔ t < (scanMin dm).1) ∧
      (∀ fuel, t < (scanMin dm).1 →
        mergeClosestClusters (fuel + 1) cs dm t = some cs) ∧
      (dm.length ≤ 1 → (scanMin dm).1 = 99) ∧
      (¬ t < (scanMin dm).1 →
        ∃ cs' dm', mergeStep cs dm t = .merged cs' dm' ∧
          dm'.length + 1 = dm.length ∧
          (cs.length = dm.length → cs'.length + 1 = cs.length) ∧
          ∀ fuel, mergeClosestClusters (fuel + 1) cs dm t =
            mergeClosestClusters fuel cs' dm' t) := by
  intro cs dm t ht
  refine ⟨mergeClosestClusters_isSome ht dm.length cs dm le_rfl,
    mergeStep_terminated_iff cs dm t,
    fun fuel h => mergeClosestClusters_succ_of_term fuel h,
    fun h => by rw [scanMin_of_small dm h],
    fun hns => ?_⟩
  cases hstep : mergeStep cs dm t with
  | terminated => exact absurd ((mergeStep_terminated_iff cs dm t).mp hstep) hns
  | diverged => exact absurd hstep (mergeStep_ne_diverged ht)
  | merged cs' dm' =>
      obtain ⟨hlt, hrange, _, _, hcs', hdm'⟩ := mergeStep_merged_inv ht hstep
      refine ⟨cs', dm', rfl, ?_, ?_,
        fun fuel => mergeClosestClusters_succ_of_merged fuel hstep⟩
      · rw [hdm', matrixMerge_length dm _ _ hrange]
        omega
      · intro hcd
        rw [hcs', List.length_eraseIdx_of_lt (by rw [List.length_set]; omega),
          List.length_set]
        omega

/-- C1, witness at clusters `[[0], [1]]`, matrix `[[0, 5], [5, 0]]`,
threshold 0. -/
theorem c1_witness :
    (0 : ℚ) < 99 ∧
      ((mergeClosestClusters (List.length [[(0 : ℚ), 5], [5, 0]] + 1)
          [[0], [1]] [[(0 : ℚ), 5], [5, 0]] 0).isSome ∧
        (mergeStep [[0], [1]] [[(0 : ℚ), 5], [5, 0]] 0 = .terminated ↔
          (0 : ℚ) < (scanMin [[(0 : ℚ), 5], [5, 0]]).1) ∧
        (∀ fuel, (0 : ℚ) < (scanMin [[(0 : ℚ), 5], [5, 0]]).1 →
          mergeClosestClusters (fuel + 1) [[0], [1]] [[(0 : ℚ), 5], [5, 0]] 0 =
            some [[0], [1]]) ∧
        (List.length [[(0 : ℚ), 5], [5, 0]] ≤ 1 →
          (scanMin [[(0 : ℚ), 5], [5, 0]]).1 = 99) ∧
        (¬ (0 : ℚ) < (scanMin [[(0 : ℚ), 5], [5, 0]]).1 →
          ∃ cs' dm', mergeStep [[0], [1]] [[(0 : ℚ), 5], [5, 0]] 0 = .merged cs' dm' ∧
            dm'.length + 1 = List.length [[(0 : ℚ), 5], [5, 0]] ∧
            (List.length [[0], [1]] = List.length [[(0 : ℚ), 5], [5, 0]] →
              cs'.length + 1 = List.length ([[0], [1]] : List (List Nat))) ∧
            ∀ fuel, mergeClosestClusters (fuel + 1) [[0], [1]] [[(0 : ℚ), 5], [5, 0]] 0 =
              mergeClosestClusters fuel cs' dm' 0)) :=
  ⟨by norm_num, c1_termination_behaviour [[0], [1]] [[(0 : ℚ), 5], [5, 0]] 0 (by norm_num)⟩

/-! ## C2 -/

/-- C2, counterexample.  The claim asserts `matrix[i][i] == 0` also during
construction.  With two equal-length keys, after three of the four cell steps
of the sequential build the diagonal cell `(1, 1)` still holds the `99`
sentinel written by `make_distance_matrix`'s initialization (the fourth step
completes the build, whose final state is `makeDistanceMatrix env0`). -/
theorem c2_counterexample :
    getCell (buildStateAt env0 (List.range env0.keys.length) 3).dm 1 1 = 99 ∧
      (buildStateAt env0 (List.range env0.keys.length) 4).dm
        = makeDistanceMatrix env0 ∧
      (99 : ℚ) ≠ 0 := by
  refine ⟨?_, ?_, by norm_num⟩
  · norm_num [buildStateAt, buildSteps, processCell, initMatrix, getCell, setCell,
      gateFail, env0, List.range_succ, List.range_zero]
  · norm_num [buildStateAt, makeDistanceMatrix, buildRows, processRow, buildSteps,
      processCell, initMatrix, getCell, setCell, gateFail, env0, List.range_succ,
      List.range_zero]

/-- C2 (amended): the finished all-pairs matrix has a zero diagonal and is
symmetric; during construction every intermediate state is symmetric but its
diagonal entries are 0 *or the sentinel 99*; and every merge performed by the
engine preserves squareness, symmetry, the zero diagonal and non-negativity. -/
theorem c2_matrix_invariants :
    (∀ env : BuildEnv, env.keys.Nodup →
      (∀ i, i < env.keys.length → getCell (makeDistanceMatrix env) i i = 0) ∧
        Symm (makeDistanceMatrix env)) ∧
    (∀ env : BuildEnv, env.keys.Nodup → ∀ t,
      Symm (buildStateAt env (List.range env.keys.length) t).dm ∧
        ∀ i, getCell (buildStateAt env (List.range env.keys.length) t).dm i i = 0 ∨
          getCell (buildStateAt env (List.range env.keys.length) t).dm i i = 99) ∧
    (∀ (cs cs' : List (List Nat)) (dm dm' : Mat) (t : ℚ), t < 99 →
      Square dm → Symm dm → DiagZero dm → Nonneg dm →
      mergeStep cs dm t = .merged cs' dm' →
      Square dm' ∧ Symm dm' ∧ DiagZero dm' ∧ Nonneg dm') := by
  refine ⟨fun env hnd => ⟨makeDistanceMatrix_diag env hnd, makeDistanceMatrix_symm env hnd⟩,
    fun env hnd t => ?_,
    fun cs cs' dm dm' t ht hsq hsym hdz hnn h =>
      mergeStep_preserves_inv ht hsq hsym hdz hnn h⟩
  obtain ⟨_, hsd⟩ := buildStateAt_symmDiag env hnd t
  exact ⟨hsd.1, hsd.2⟩

/-- C2, witness: the final-matrix and intermediate-state parts at `env0`, the
merge part at the engine's first merge on `dmW`. -/
theorem c2_witness :
    (env0.keys.Nodup ∧
      (∀ i, i < env0.keys.length → getCell (makeDistanceMatrix env0) i i = 0) ∧
        Symm (makeDistanceMatrix env0)) ∧
    ((2 : ℚ) < 99 ∧ mergeStep [[0], [1], [2]] dmW 2 = .merged [[0, 1], [2]] [[(0 : ℚ), 2], [2, 0]] ∧
      Square [[(0 : ℚ), 2], [2, 0]] ∧ Symm [[(0 : ℚ), 2], [2, 0]] ∧
        DiagZero [[(0 : ℚ), 2], [2, 0]] ∧ Nonneg [[(0 : ℚ), 2], [2, 0]]) := by
  have hnd : env0.keys.Nodup := by decide
  have hstep : mergeStep [[0], [1], [2]] dmW 2 = .merged [[0, 1], [2]] [[(0 : ℚ), 2], [2, 0]] := by
    unfold mergeStep
    rw [scanMin_dmW]
    decide
  refine ⟨⟨hnd, c2_matrix_invariants.1 env0 hnd⟩,
    ⟨by norm_num, hstep, ?_⟩⟩
  exact c2_matrix_invariants.2.2 [[0], [1], [2]] [[0, 1], [2]] dmW _ 2 (by norm_num)
    dmW_square dmW_symm dmW_diag dmW_nonneg hstep

/-! ## C3 -/

/-- C3, counterexample.  For lengths 100 and 160 at `L = 1/2` the gate is
direction-dependent: it fails from the 160-row but passes from the 100-row, so
when the 100-row is processed first the comparator *is* invoked for the pair
and the cell ends at the comparator's e-value 1, not 50. -/
theorem c3_counterexample :
    gateFail env3.slen env3.L (env3.keys.getD 1 0) (env3.keys.getD 0 0) ∧
      ¬ gateFail env3.slen env3.L (env3.keys.getD 0 0) (env3.keys.getD 1 0) ∧
      (buildRows env3 [0, 1]).calls = [(0, 1)] ∧
      getCell (buildRows env3 [0, 1]).dm 0 1 = 1 ∧
      (1 : ℚ) ≠ 50 := by
  refine ⟨?_, ?_, ?_, ?_, by norm_num⟩
  · norm_num [gateFail, env3]
  · norm_num [gateFail, env3]
  · norm_num [buildRows, processRow, processCell, buildSteps, initMatrix, getCell,
      setCell, gateFail, env3, List.range_succ, List.range_zero]
  · norm_num [buildRows, processRow, processCell, buildSteps, initMatrix, getCell,
      setCell, gateFail, env3, List.range_succ, List.range_zero]

/-- C3 (amended): when the row holding the longer-than-tolerated sequence
processes a still-uncompared pair, 50 is written to both cells, nothing is
appended to the comparator call log, and a computed pair is never reprocessed;
but the gate is direction-dependent: for lengths 100/160 at `L = 1/2` the
comparator is never invoked only when the 160-row claims the pair first
(cells end at 50), while the 100-row claiming it first invokes the comparator
and stores its score. -/
theorem c3_length_gate :
    (∀ (env : BuildEnv) (st : BuildState) (i j : Nat),
      getCell st.dm i j = 99 →
      env.keys.getD i 0 ≠ env.keys.getD j 0 →
      gateFail env.slen env.L (env.keys.getD i 0) (env.keys.getD j 0) →
      processCell env st i j =
        { st with dm := setCell (setCell st.dm i j 50) j i 50 }) ∧
    (∀ (env : BuildEnv) (st : BuildState) (i j : Nat),
      getCell st.dm i j ≠ 99 → processCell env st i j = st) ∧
    ((buildRows env3 [1, 0]).calls = [] ∧
      getCell (buildRows env3 [1, 0]).dm 0 1 = 50 ∧
      getCell (buildRows env3 [1, 0]).dm 1 0 = 50) ∧
    ((buildRows env3 [0, 1]).calls = [(0, 1)] ∧
      getCell (buildRows env3 [0, 1]).dm 0 1 = 1) := by
  refine ⟨fun env st i j h99 hk hg => ?_, fun env st i j h99 => ?_, ⟨?_, ?_, ?_⟩, ⟨?_, ?_⟩⟩
  · unfold processCell
    rw [if_pos h99, if_neg hk, if_pos hg]
  · unfold processCell
    rw [if_neg h99]
  · norm_num [buildRows, processRow, processCell, buildSteps, initMatrix, getCell,
      setCell, gateFail, env3, List.range_succ, List.range_zero]
  · norm_num [buildRows, processRow, processCell, buildSteps, initMatrix, getCell,
      setCell, gateFail, env3, List.range_succ, List.range_zero]
  · norm_num [buildRows, processRow, processCell, buildSteps, initMatrix, getCell,
      setCell, gateFail, env3, List.range_succ, List.range_zero]
  · norm_num [buildRows, processRow, processCell, buildSteps, initMatrix, getCell,
      setCell, gateFail, env3, List.range_succ, List.range_zero]
  · norm_num [buildRows, processRow, processCell, buildSteps, initMatrix, getCell,
      setCell, gateFail, env3, List.range_succ, List.range_zero]

/-- C3, witness: the gate branch applied at the 160-row of `env3` on the fresh
2×2 sentinel matrix. -/
theorem c3_witness :
    getCell (⟨initMatrix 2, []⟩ : BuildState).dm 1 0 = 99 ∧
      env3.keys.getD 1 0 ≠ env3.keys.getD 0 0 ∧
      gateFail env3.slen env3.L (env3.keys.getD 1 0) (env3.keys.getD 0 0) ∧
      processCell env3 ⟨initMatrix 2, []⟩ 1 0 =
        { (⟨initMatrix 2, []⟩ : BuildState) with
            dm := setCell (setCell (⟨initMatrix 2, []⟩ : BuildState).dm 1 0 50) 0 1 50 } := by
  have h1 : getCell (⟨initMatrix 2, []⟩ : BuildState).dm 1 0 = 99 := by decide
  have h2 : env3.keys.getD 1 0 ≠ env3.keys.getD 0 0 := by decide
  have h3 : gateFail env3.slen env3.L (env3.keys.getD 1 0) (env3.keys.getD 0 0) := by
    norm_num [gateFail, env3]
  exact ⟨h1, h2, h3, c3_length_gate.1 env3 ⟨initMatrix 2, []⟩ 1 0 h1 h2 h3⟩

/-! ## C4 -/

/-- C4: after any merge the engine performs (threshold below the sentinel, so
the merged pair is the scan's `cluster1 < cluster2`), the merged row and the
merged column hold the single-linkage minimum of the two pre-merge rows at
every remaining index, hence a value that is at most either pre-merge
distance.  `k`'s position after the deletion of row/column `cluster2` is
`k` itself below `cluster2` and `k - 1` above it. -/
theorem c4_single_linkage :
    ∀ (cs cs' : List (List Nat)) (dm dm' : Mat) (t : ℚ) (k : Nat), t < 99 →
      Square dm → Symm dm →
      mergeStep cs dm t = .merged cs' dm' →
      k < dm.length → k ≠ (scanMin dm).2.2 →
      (getCell dm' (scanMin dm).2.1 (if k < (scanMin dm).2.2 then k else k - 1) =
        min (getCell dm (scanMin dm).2.1 k) (getCell dm (scanMin dm).2.2 k)) ∧
      (getCell dm' (if k < (scanMin dm).2.2 then k else k - 1) (scanMin dm).2.1 =
        min (getCell dm (scanMin dm).2.1 k) (getCell dm (scanMin dm).2.2 k)) ∧
      min (getCell dm (scanMin dm).2.1 k) (getCell dm (scanMin dm).2.2 k) ≤
        getCell dm (scanMin dm).2.1 k ∧
      min (getCell dm (scanMin dm).2.1 k) (getCell dm (scanMin dm).2.2 k) ≤
        getCell dm (scanMin dm).2.2 k := by
  intro cs cs' dm dm' t k ht hsq hsym hstep hk hky
  obtain ⟨hlt, hrange, _, _, _, hdm'⟩ := mergeStep_merged_inv ht hstep
  obtain ⟨hrow, hcol⟩ :=
    matrixMerge_single_linkage dm hlt hrange hk hky hsq hsym
  rw [hdm']
  exact ⟨hrow, hcol, min_le_left _ _, min_le_right _ _⟩

/-- C4, witness: the first merge on `dmW` (pair `(0, 1)`, remaining index 2). -/
theorem c4_witness :
    (2 : ℚ) < 99 ∧ Square dmW ∧ Symm dmW ∧
      mergeStep [[0], [1], [2]] dmW 2 = .merged [[0, 1], [2]] [[(0 : ℚ), 2], [2, 0]] ∧
      2 < dmW.length ∧ 2 ≠ (scanMin dmW).2.2 ∧
      ((getCell [[(0 : ℚ), 2], [2, 0]] (scanMin dmW).2.1
          (if 2 < (scanMin dmW).2.2 then 2 else 2 - 1) =
        min (getCell dmW (scanMin dmW).2.1 2) (getCell dmW (scanMin dmW).2.2 2)) ∧
      (getCell [[(0 : ℚ), 2], [2, 0]] (if 2 < (scanMin dmW).2.2 then 2 else 2 - 1)
          (scanMin dmW).2.1 =
        min (getCell dmW (scanMin dmW).2.1 2) (getCell dmW (scanMin dmW).2.2 2)) ∧
      min (getCell dmW (scanMin dmW).2.1 2) (getCell dmW (scanMin dmW).2.2 2) ≤
        getCell dmW (scanMin dmW).2.1 2 ∧
      min (getCell dmW (scanMin dmW).2.1 2) (getCell dmW (scanMin dmW).2.2 2) ≤
        getCell dmW (scanMin dmW).2.2 2) := by
  have hstep : mergeStep [[0], [1], [2]] dmW 2 = .merged [[0, 1], [2]] [[(0 : ℚ), 2], [2, 0]] := by
    unfold mergeStep
    rw [scanMin_dmW]
    decide
  refine ⟨by norm_num, dmW_square, dmW_symm, hstep, by decide, ?_, ?_⟩
  · rw [scanMin_dmW]
    decide
  · exact c4_single_linkage [[0], [1], [2]] [[0, 1], [2]] dmW _ 2 2 (by norm_num)
      dmW_square dmW_symm hstep (by decide) (by rw [scanMin_dmW]; decide)

/-! ## C5 -/

/-- C5: on a matrix with non-negative pair entries at least one of which is
below the sentinel 99, the scan is the row-major fold over exactly the pairs
`(x, y)`, `x < y` (with the `distance == 0` short-circuit); it returns an
in-range pair `cluster1 < cluster2` whose cell is the running minimum, that
minimum bounds every pair, and every pair visited earlier in scan order is
strictly larger — the first minimal pair in row-major order wins ties. -/
theorem c5_scan_order :
    ∀ dm : Mat,
      (∀ a b, a < b → b < dm.length → 0 ≤ getCell dm a b) →
      (∃ a b, a < b ∧ b < dm.length ∧ getCell dm a b < 99) →
      scanMin dm = scanFold dm (pairList dm.length) (99, 0, 0) ∧
      (∀ p : Nat × Nat, p ∈ pairList dm.length ↔ p.1 < p.2 ∧ p.2 < dm.length) ∧
      (scanMin dm).2.1 < (scanMin dm).2.2 ∧ (scanMin dm).2.2 < dm.length ∧
      getCell dm (scanMin dm).2.1 (scanMin dm).2.2 = (scanMin dm).1 ∧
      (∀ a b, a < b → b < dm.length → (scanMin dm).1 ≤ getCell dm a b) ∧
      (∃ l1 l2, pairList dm.length = l1 ++ (scanMin dm).2 :: l2 ∧
        ∀ p ∈ l1, (scanMin dm).1 < getCell dm p.1 p.2) := by
  intro dm hnn hex
  obtain ⟨a, b, hab, hb, hlt⟩ := hex
  have hle := scanMin_le_pairs dm hnn
  have hm99 : (scanMin dm).1 < 99 := lt_of_le_of_lt (hle a b hab hb) hlt
  rcases scanMin_cases dm with hcase | ⟨_, hlt', hrange, hcell⟩
  · rw [hcase] at hm99
    norm_num at hm99
  · exact ⟨scanMin_eq_scanFold dm, fun p => mem_pairList dm.length p, hlt', hrange,
      hcell, hle, scanMin_first dm hm99⟩

/-- C5, witness at `dmW`: minimum 1 at the first pair `(0, 1)`. -/
theorem c5_witness :
    (∀ a b, a < b → b < dmW.length → 0 ≤ getCell dmW a b) ∧
      (∃ a b, a < b ∧ b < dmW.length ∧ getCell dmW a b < 99) ∧
      (scanMin dmW = scanFold dmW (pairList dmW.length) (99, 0, 0) ∧
        (∀ p : Nat × Nat, p ∈ pairList dmW.length ↔ p.1 < p.2 ∧ p.2 < dmW.length) ∧
        (scanMin dmW).2.1 < (scanMin dmW).2.2 ∧ (scanMin dmW).2.2 < dmW.length ∧
        getCell dmW (scanMin dmW).2.1 (scanMin dmW).2.2 = (scanMin dmW).1 ∧
        (∀ a b, a < b → b < dmW.length → (scanMin dmW).1 ≤ getCell dmW a b) ∧
        (∃ l1 l2, pairList dmW.length = l1 ++ (scanMin dmW).2 :: l2 ∧
          ∀ p ∈ l1, (scanMin dmW).1 < getCell dmW p.1 p.2)) := by
  have hnn : ∀ a b, a < b → b < dmW.length → 0 ≤ getCell dmW a b := by
    intro a b hab hb
    have hb3 : b < 3 := by simpa [dmW] using hb
    interval_cases b <;> interval_cases a <;> decide
  have hex : ∃ a b, a < b ∧ b < dmW.length ∧ getCell dmW a b < 99 :=
    ⟨0, 1, by norm_num, by decide, by decide⟩
  exact ⟨hnn, hex, c5_scan_order dmW hnn hex⟩

/-! ## C6 -/

/-- C6: with zero guide sequences the guided builder returns the empty cluster
list, and a candidate whose length fails the guided gate against every guide
appears in no output cluster. -/
theorem c6_guided_empty_and_gate :
    (∀ (env : GuidedEnv) (keys : List Nat), makeGuidedClusters env [] keys = []) ∧
    (∀ (env : GuidedEnv) (guides keys : List Nat) (c : Nat),
      (∀ g ∈ guides, ¬ guidedGate env g c) →
      ∀ cl ∈ makeGuidedClusters env guides keys, c ∉ cl) := by
  refine ⟨fun env keys => rfl, fun env guides keys c hgate cl hcl hc => ?_⟩
  obtain ⟨g, hg, rfl⟩ := List.mem_map.mp hcl
  obtain ⟨_, hpass, _⟩ := mem_guidedCluster.mp hc
  exact hgate g hg hpass

/-- C6, witness: one guide of length 100, candidate 5 of length 1000 at
`L = 1/2` fails the gate and lands in no cluster. -/
theorem c6_witness :
    (∀ g ∈ ([0] : List Nat), ¬ guidedGate envG g 5) ∧
      ∀ cl ∈ makeGuidedClusters envG [0] [5], 5 ∉ cl := by
  have hgate : ∀ g ∈ ([0] : List Nat), ¬ guidedGate envG g 5 := by
    intro g _
    unfold guidedGate envG
    norm_num
  exact ⟨hgate, c6_guided_empty_and_gate.2 envG [0] [5] 5 hgate⟩

/-! ## C7 -/

/-- C7, counterexample.  The claim says `EmptyGuideSet` and `EmptyInput` are
detected before any worker is spawned and reported immediately.  With an
existing but empty guide file the guided builder spawns its workers
(`spawned = true`) and returns a normal empty cluster list rather than
reporting anything, and the matrix builder with zero keys likewise spawns
workers and returns the empty matrix. -/
theorem c7_counterexample :
    (makeGuidedClustersRun envG true [] [5]).spawned = true ∧
      (makeGuidedClustersRun envG true [] [5]).result = some [] ∧
      (makeDistanceMatrixRun envEmpty).1 = true ∧
      (makeDistanceMatrixRun envEmpty).2 = [] :=
  ⟨rfl, rfl, rfl, rfl⟩

/-- C7 (amended): the only configuration error detected before spawning
workers is the missing guide file (exit before spawn, nothing returned); with
an empty guide set or empty input, workers are spawned anyway and an empty
cluster list resp. an empty matrix is returned without any error report. -/
theorem c7_prespawn_checks :
    (∀ (env : GuidedEnv) (guides keys : List Nat),
      makeGuidedClustersRun env false guides keys = ⟨false, none⟩) ∧
    (∀ (env : GuidedEnv) (guides keys : List Nat),
      makeGuidedClustersRun env true guides keys =
        ⟨true, some (makeGuidedClusters env guides keys)⟩) ∧
    (∀ (env : GuidedEnv) (keys : List Nat),
      makeGuidedClustersRun env true [] keys = ⟨true, some []⟩) ∧
    (∀ env : BuildEnv, (makeDistanceMatrixRun env).1 = true) ∧
    (∀ env : BuildEnv, env.keys = [] → makeDistanceMatrixRun env = (true, [])) := by
  refine ⟨fun env guides keys => rfl, fun env guides keys => rfl,
    fun env keys => rfl, fun env => rfl, fun env h => ?_⟩
  simp [makeDistanceMatrixRun, makeDistanceMatrix, buildRows, h, initMatrix]

/-- C7, witness: the empty-input part at `envEmpty`. -/
theorem c7_witness :
    envEmpty.keys = [] ∧ makeDistanceMatrixRun envEmpty = (true, []) :=
  ⟨rfl, c7_prespawn_checks.2.2.2.2 envEmpty rfl⟩

/-! ## C8 -/

/-- C8, counterexample.  Identical inputs (keys of lengths 100 and 160,
`L = 1/2`, constant deterministic comparator), two runs whose workers claim
the rows in the two possible orders — both complete schedules — give
different matrices: the length gate is direction-asymmetric, so the
100-row-first run stores the comparator score where the 160-row-first run
stores the gate value 50. -/
theorem c8_counterexample :
    (∀ i, i < env3.keys.length → i ∈ ([0, 1] : List Nat)) ∧
      (∀ i, i < env3.keys.length → i ∈ ([1, 0] : List Nat)) ∧
      (buildRows env3 [0, 1]).dm ≠ (buildRows env3 [1, 0]).dm := by
  refine ⟨?_, ?_, ?_⟩
  · intro i hi
    have h2 : i < 2 := by simpa [env3] using hi
    interval_cases i <;> decide
  · intro i hi
    have h2 : i < 2 := by simpa [env3] using hi
    interval_cases i <;> decide
  · norm_num [buildRows, processRow, processCell, buildSteps, initMatrix, getCell,
      setCell, gateFail, env3, List.range_succ, List.range_zero,
      List.replicate_succ, List.replicate_zero, List.set_cons_zero,
      List.set_cons_succ]

/-- C8 (amended): the builder's result is a deterministic function of the
inputs and the row-claim schedule, and it is independent of the schedule
whenever the length gate and the comparator are direction-symmetric for the
given inputs: any two complete claim orders yield identical matrices. -/
theorem c8_schedule_determinism :
    ∀ (env : BuildEnv) (o1 o2 : List Nat),
      (∀ a b, gateFail env.slen env.L a b ↔ gateFail env.slen env.L b a) →
      (∀ a b, env.cmp a b = env.cmp b a) →
      (∀ i, i < env.keys.length → i ∈ o1) →
      (∀ i, i < env.keys.length → i ∈ o2) →
      (buildRows env o1).dm = (buildRows env o2).dm := by
  intro env o1 o2 Hg Hc hc1 hc2
  refine mat_eq_of_cells (buildRows_shape env o1) (buildRows_shape env o2) ?_
  intro i j hi hj
  rw [buildRows_getCell_of_cover env Hg Hc o1 hc1 i j hi hj,
    buildRows_getCell_of_cover env Hg Hc o2 hc2 i j hi hj]

/-- C8, witness: equal-length keys (the gate is then symmetric) and a constant
comparator; the two claim orders give the same matrix. -/
theorem c8_witness :
    (∀ a b, gateFail env0.slen env0.L a b ↔ gateFail env0.slen env0.L b a) ∧
      (∀ a b, env0.cmp a b = env0.cmp b a) ∧
      (∀ i, i < env0.keys.length → i ∈ ([0, 1] : List Nat)) ∧
      (∀ i, i < env0.keys.length → i ∈ ([1, 0] : List Nat)) ∧
      (buildRows env0 [0, 1]).dm = (buildRows env0 [1, 0]).dm := by
  have Hg : ∀ a b, gateFail env0.slen env0.L a b ↔ gateFail env0.slen env0.L b a :=
    fun a b => Iff.rfl
  have Hc : ∀ a b, env0.cmp a b = env0.cmp b a := fun a b => rfl
  have hc1 : ∀ i, i < env0.keys.length → i ∈ ([0, 1] : List Nat) := by
    intro i hi
    have h2 : i < 2 := by simpa [env0] using hi
    interval_cases i <;> decide
  have hc2 : ∀ i, i < env0.keys.length → i ∈ ([1, 0] : List Nat) := by
    intro i hi
    have h2 : i < 2 := by simpa [env0] using hi
    interval_cases i <;> decide
  exact ⟨Hg, Hc, hc1, hc2, c8_schedule_determinism env0 [0, 1] [1, 0] Hg Hc hc1 hc2⟩

/-! ## C9 -/

/-- C9: in every interleaving of the lock-protected check-and-insert claim
steps, the claimed keys recorded as assigned are pairwise distinct, so a row
claimed by one worker is never processed by another: at most one worker ever
runs the per-row comparison loop for any key. -/
theorem c9_claim_exclusive :
    ∀ trace : List (Nat × Nat),
      ((runClaims trace).assigned.map Prod.snd).Nodup ∧
      ∀ w1 w2 k, (w1, k) ∈ (runClaims trace).assigned →
        (w2, k) ∈ (runClaims trace).assigned → w1 = w2 := by
  intro trace
  have hinv := claims_invariant trace ⟨[], []⟩ ⟨by simp, by simp⟩
  exact ⟨hinv.1, fun w1 w2 k h1 h2 => nodup_snd_unique hinv.1 h1 h2⟩

/-- C9, witness: workers 0 and 1 both attempt row 5; only worker 0's claim is
recorded, and the uniqueness instance for key 5 follows from the theorem. -/
theorem c9_witness :
    ((runClaims [(0, 5), (1, 5), (1, 6)]).assigned.map Prod.snd).Nodup ∧
      (0, 5) ∈ (runClaims [(0, 5), (1, 5), (1, 6)]).assigned ∧
      (0 : Nat) = 0 :=
  ⟨(c9_claim_exclusive [(0, 5), (1, 5), (1, 6)]).1, by decide,
    (c9_claim_exclusive [(0, 5), (1, 5), (1, 6)]).2 0 0 5 (by decide) (by decide)⟩

/-! ## C10 -/

/-- C10: with a threshold strictly below the sentinel 99 the recursion always
terminates (fuel `rows + 1` suffices), every merge removes exactly one matrix
row and — when clusters and matrix agree in length — exactly one cluster,
the scan of at most one cluster leaves the minimum at its initial 99, and the
precondition is necessary: with one non-empty cluster left and threshold
`≥ 99` the body tries to merge cluster 0 into itself and the recursion
returns nothing at any fuel. -/
theorem c10_termination :
    (∀ (cs : List (List Nat)) (dm : Mat) (t : ℚ), t < 99 →
      (mergeClosestClusters (dm.length + 1) cs dm t).isSome) ∧
    (∀ (cs cs' : List (List Nat)) (dm dm' : Mat) (t : ℚ), t < 99 →
      mergeStep cs dm t = .merged cs' dm' →
      dm'.length + 1 = dm.length ∧
        (cs.length = dm.length → cs'.length + 1 = cs.length)) ∧
    (∀ dm : Mat, dm.length ≤ 1 → (scanMin dm).1 = 99) ∧
    (∀ t : ℚ, 99 ≤ t → ∀ k : Nat,
      mergeStep [[k]] [[(0 : ℚ)]] t = .diverged ∧
        ∀ fuel, mergeClosestClusters fuel [[k]] [[(0 : ℚ)]] t = none) := by
  refine ⟨fun cs dm t ht => mergeClosestClusters_isSome ht dm.length cs dm le_rfl,
    fun cs cs' dm dm' t ht hstep => ?_,
    fun dm h => by rw [scanMin_of_small dm h],
    fun t ht k => ⟨mergeStep_self_diverged ht k,
      mergeClosestClusters_self_none ht k⟩⟩
  obtain ⟨hlt, hrange, _, _, hcs', hdm'⟩ := mergeStep_merged_inv ht hstep
  constructor
  · rw [hdm', matrixMerge_length dm _ _ hrange]
    omega
  · intro hcd
    rw [hcs', List.length_eraseIdx_of_lt (by rw [List.length_set]; omega),
      List.length_set]
    omega

/-- C10, witness: termination at threshold 0 on a singleton system, and the
self-merge divergence at threshold 99 with cluster `[[7]]`. -/
theorem c10_witness :
    ((0 : ℚ) < 99 ∧
      (mergeClosestClusters (List.length [[(0 : ℚ)]] + 1) [[5]] [[(0 : ℚ)]] 0).isSome) ∧
    ((99 : ℚ) ≤ 99 ∧ mergeStep [[7]] [[(0 : ℚ)]] 99 = .diverged ∧
      mergeClosestClusters 50 [[7]] [[(0 : ℚ)]] 99 = none) :=
  ⟨⟨by norm_num, c10_termination.1 [[5]] [[(0 : ℚ)]] 0 (by norm_num)⟩,
    ⟨le_rfl, (c10_termination.2.2.2 99 le_rfl 7).1,
      (c10_termination.2.2.2 99 le_rfl 7).2 50⟩⟩

end Sumac

